import Mathlib

/-!
Verification of the Activity runtime core of a BPMN-style execution engine.

The definitions below are a shallow embedding of the Activity state machine
(`Activity.prototype._continueRunMessage`), the public-operation guards
(`run` / `recover` / `resume`), the execution-id bookkeeping
(`init` / `run` / `_runDiscard`), the parallel-join inbound consumer
(`Activity.prototype._onJoinInbound`) and the conditional outbound flow
evaluator (`OutboundEvaluator`), all taken from the source of the repository.
Theorems about these definitions settle the specification claims.
-/

namespace Bpmn

/-! ## Counters and the run-queue state machine

`RunState` models the mutable slots of an Activity that the run consumer
touches: `status` (a nullable string, exactly as in the source), the two
counters, and whether an `ActivityExecution` instance currently exists.
-/

structure Counters where
  taken : Nat
  discarded : Nat
deriving DecidableEq, Repr

structure RunState where
  status : Option String
  counters : Counters
  hasExecution : Bool
deriving DecidableEq, Repr

/-- Observable effects of consuming one run-queue message.  `event k`
means a publication of routing key `activity.k` on the event exchange;
`runPublish k` a publication on the run exchange; `leaveSeq d` the start of
the `_doRunLeave` continuation (outbound dispatch followed by `run.leave`);
the rest mirror the behaviour hand-offs of the source. -/
inductive RunEffect
  | event (key : String)
  | runPublish (key : String)
  | leaveSeq (isDiscarded : Bool)
  | execBehaviour
  | passBehaviour
  | flowTakeEffect
  | flowDiscardEffect
  | consumeInboundEffect
deriving DecidableEq, Repr

/-- The `run.execute` case of `_continueRunMessage`: set status `executing`,
make sure an execution exists, and hand the message to the behaviour
(resuming extensions first when redelivered, which publishes no event). -/
def executeCase (s : RunState) : RunState × List RunEffect :=
  ({ s with status := some "executing", hasExecution := true }, [.execBehaviour])

/-- Shallow embedding of `Activity.prototype._continueRunMessage`: the
switch over run-queue routing keys, restricted to the state slots and
observable effects claims are about. -/
def continueRunMessage (s : RunState) (routingKey : String) (redelivered : Bool) :
    RunState × List RunEffect :=
  match routingKey with
  | "run.enter" =>
      ({ s with status := some "entered",
                hasExecution := if redelivered then s.hasExecution else false },
       if redelivered then [] else [.event "enter"])
  | "run.discard" =>
      ({ s with status := some "discard", hasExecution := false },
       if redelivered then [] else [.runPublish "run.discarded", .event "discard"])
  | "run.start" =>
      ({ s with status := some "started" },
       if redelivered then [] else [.runPublish "run.execute", .event "start"])
  | "run.execute.passthrough" =>
      if redelivered = false ∧ s.hasExecution = true then (s, [.passBehaviour])
      else executeCase s
  | "run.execute" => executeCase s
  | "run.end" =>
      if s.status = some "end" then (s, [])
      else
        let s' := { s with status := some "end",
                           counters := { s.counters with taken := s.counters.taken + 1 } }
        if redelivered then (s', []) else (s', [.leaveSeq false])
  | "run.error" => (s, [.event "error"])
  | "run.discarded" =>
      let s' := { s with status := some "discarded",
                         counters := { s.counters with discarded := s.counters.discarded + 1 } }
      if redelivered then (s', []) else (s', [.leaveSeq true])
  | "run.outbound.take" => (s, [.flowTakeEffect])
  | "run.outbound.discard" => (s, [.flowDiscardEffect])
  | "run.leave" =>
      ({ s with status := none },
       if redelivered then [] else [.runPublish "run.next", .event "leave"])
  | "run.next" => (s, [.consumeInboundEffect])
  | _ => (s, [])

/-- Routing keys of the `activity.*` events published on the event exchange
by one consumption step. -/
def publishedEvents (effects : List RunEffect) : List String :=
  effects.filterMap fun e =>
    match e with
    | .event k => some k
    | _ => none

/-- A consumption step that completes a run: a `run.end` consumed while the
status is not already `end`, or any `run.discarded`. -/
def isCompletion (s : RunState) (routingKey : String) : Bool :=
  (routingKey == "run.end" && !(s.status == some "end")) || routingKey == "run.discarded"

/-- Fold a trace of run-queue messages (routing key, redelivered flag)
through the state machine. -/
def runTrace (s : RunState) : List (String × Bool) → RunState
  | [] => s
  | (k, r) :: rest => runTrace (continueRunMessage s k r).1 rest

/-- Number of completed runs along a trace. -/
def completionCount (s : RunState) : List (String × Bool) → Nat
  | [] => 0
  | (k, r) :: rest =>
      (if isCompletion s k then 1 else 0) +
        completionCount (continueRunMessage s k r).1 rest

/-! ## Public operation guards (`run`, `recover`, `resume`) -/

structure GuardState where
  consuming : Bool
  status : Option String
deriving DecidableEq, Repr

/-- `Activity.isRunning`: false unless consuming, else truthiness of status. -/
def isRunning (s : GuardState) : Bool :=
  if s.consuming = false then false else s.status.isSome

/-- Outcome of a public operation: a synchronously thrown error (nothing
published), or normal progress with the run-exchange publications made. -/
inductive OpResult
  | threw (message : String)
  | proceeded (published : List String)
deriving DecidableEq, Repr

/-- `Activity.prototype.run`: throws when already running, otherwise
publishes `run.enter` and `run.start`. -/
def runOperation (activityId : String) (s : GuardState) : OpResult :=
  if isRunning s then .threw ("activity <" ++ activityId ++ "> is already running")
  else .proceeded ["run.enter", "run.start"]

/-- `Activity.prototype.recover`: throws when running, otherwise restores
state without publishing. -/
def recoverOperation (activityId : String) (s : GuardState) : OpResult :=
  if isRunning s then .threw ("cannot recover running activity <" ++ activityId ++ ">")
  else .proceeded []

/-- `Activity.prototype.resume`: throws when consuming; with no status it
just activates, else it publishes a transient `run.resume`. -/
def resumeOperation (activityId : String) (s : GuardState) : OpResult :=
  if s.consuming then .threw ("cannot resume running activity <" ++ activityId ++ ">")
  else .proceeded (if s.status.isSome then ["run.resume"] else [])

/-! ## Execution ids (`init`, `run`, `_runDiscard`)

`getUniqueId` of the source returns a fresh opaque id derived from the
activity id; it is modelled as a pair of the base string and a counter that
the generator increments, so freshness is provable. -/

structure UniqueId where
  base : String
  serial : Nat
deriving DecidableEq, Repr

structure IdGen where
  counter : Nat
deriving DecidableEq, Repr

def getUniqueId (base : String) (g : IdGen) : UniqueId × IdGen :=
  ({ base := base, serial := g.counter }, { counter := g.counter + 1 })

/-- The `{initExecutionId, executionId}` slots of the exec symbol. -/
structure ExecSlot where
  initExecutionId : Option UniqueId
  executionId : Option UniqueId
deriving DecidableEq, Repr

/-- `Activity.prototype.init`: `initExecutionId = initExecutionId || getUniqueId(id)`;
returns the id announced in the `activity.init` event. -/
def initOperation (activityId : String) (e : ExecSlot) (g : IdGen) :
    UniqueId × ExecSlot × IdGen :=
  match e.initExecutionId with
  | some x => (x, e, g)
  | none =>
      let (x, g') := getUniqueId activityId g
      (x, { e with initExecutionId := some x }, g')

/-- The executionId assignment in `Activity.prototype.run`:
`executionId = initExecutionId || getUniqueId(id); initExecutionId = null`. -/
def runAssignExecutionId (activityId : String) (e : ExecSlot) (g : IdGen) :
    UniqueId × ExecSlot × IdGen :=
  match e.initExecutionId with
  | some x => (x, { initExecutionId := none, executionId := some x }, g)
  | none =>
      let (x, g') := getUniqueId activityId g
      (x, { initExecutionId := none, executionId := some x }, g')

/-- The identical assignment in `Activity.prototype._runDiscard`. -/
def runDiscardAssignExecutionId (activityId : String) (e : ExecSlot) (g : IdGen) :
    UniqueId × ExecSlot × IdGen :=
  match e.initExecutionId with
  | some x => (x, { initExecutionId := none, executionId := some x }, g)
  | none =>
      let (x, g') := getUniqueId activityId g
      (x, { initExecutionId := none, executionId := some x }, g')

/-- Ids stored in the slot were all generated earlier than the generator's
next value; this is what makes generated ids fresh. -/
def ExecSlot.wellFormed (e : ExecSlot) (g : IdGen) : Prop :=
  (∀ x, e.initExecutionId = some x → x.serial < g.counter) ∧
  (∀ x, e.executionId = some x → x.serial < g.counter)

/-! ## Parallel-join inbound consumer (`Activity.prototype._onJoinInbound`) -/

/-- The content of an inbound message: the id of the source flow and its
optional discard sequence. -/
structure JoinContent where
  id : String
  discardSequence : Option (List String)
deriving DecidableEq, Repr

/-- An inbound-queue message as seen by the join consumer: the delivery
routing key and the content. -/
structure JoinMessage where
  routingKey : String
  content : JoinContent
deriving DecidableEq, Repr

/-- The merged discard sequence computed by the reduce over the collected
messages: ids of each message's discard sequence are appended in order,
skipping those already present. -/
def mergeDiscardSequence (messages : List JoinMessage) : List String :=
  messages.foldl
    (fun result im =>
      match im.content.discardSequence with
      | none => result
      | some ds => ds.foldl (fun r sourceId => if sourceId ∈ r then r else r ++ [sourceId]) result)
    []

/-- Result of one `_onJoinInbound` step.  Every constructor carries the new
`inboundJoinFlows` buffer; the dispatch constructors also carry the list of
messages acknowledged (in acknowledgement order, all acked before the
dispatch call) and the cloned contents passed as `inbound`. -/
inductive JoinOutcome
  | noDispatch (buffer : List JoinMessage)
  | dispatchRun (buffer acked : List JoinMessage) (inbound : List JoinContent)
  | dispatchDiscard (buffer acked : List JoinMessage) (inbound : List JoinContent)
      (discardSequence : List String)
deriving DecidableEq, Repr

/-- Shallow embedding of `Activity.prototype._onJoinInbound`.  Note that the
source pushes the message onto `inboundJoinFlows` before the duplicate
check returns, and tests `inboundJoinFlows.length >= inboundTriggers.length`
on the buffer including the pushed message. -/
def onJoinInbound (buffer : List JoinMessage) (inboundTriggerCount : Nat)
    (message : JoinMessage) : JoinOutcome :=
  let duplicate := buffer.any fun msg => msg.content.id = message.content.id
  let buffer' := buffer ++ [message]
  if duplicate then .noDispatch buffer'
  else if buffer'.length < inboundTriggerCount then .noDispatch buffer'
  else
    let evaluated := buffer'
    let taken := evaluated.any fun im => im.routingKey = "flow.take"
    let inbound := evaluated.map fun im => im.content
    if taken then .dispatchRun [] evaluated inbound
    else .dispatchDiscard [] evaluated inbound (mergeDiscardSequence evaluated)

/-- The distinct source-flow ids of a buffer. -/
def distinctIds (buffer : List JoinMessage) : List String :=
  (buffer.map fun m => m.content.id).dedup

/-! ## Outbound evaluator (`OutboundEvaluator`)

A sequence flow is described by its id, its `isDefault` flag and, when a
condition is attached, the outcome its condition produces for the message
being evaluated (an execution error or the truthiness of the result). -/

inductive CondOutcome
  | failed (e : String)
  | value (b : Bool)
deriving DecidableEq, Repr

structure Flow where
  id : String
  isDefault : Bool
  condition : Option CondOutcome
deriving DecidableEq, Repr

/-- A per-flow evaluation record, as assembled by `formatFlowAction` and the
evaluator: optional fields model JS keys that are present only on some
records (`isDefault` is only set when true, `result` and `evaluationId`
only when a condition executed, `message` only when the source message has
a payload). -/
structure FlowRecord where
  id : String
  action : String
  isDefault : Bool
  result : Option Bool
  evaluationId : Option String
  message : Option String
deriving DecidableEq, Repr

def formatFlowAction (flow : Flow) (action : String) (result : Option Bool)
    (evaluationId : Option String) : FlowRecord :=
  { id := flow.id, action := action, isDefault := flow.isDefault,
    result := result, evaluationId := evaluationId, message := none }

/-- The source message handed to the evaluator. -/
structure SourceContent where
  executionId : String
  message : Option String
deriving DecidableEq, Repr

structure SourceMessage where
  content : SourceContent
deriving DecidableEq, Repr

/-- `ActivityError` as far as the claims observe it: the error message and
the source message attached as cause. -/
structure ActivityError where
  message : String
  source : SourceMessage
deriving DecidableEq, Repr

/-- What the completion callback receives: a condition-execution error
surfaced as-is, an `ActivityError` (no flow taken), or the evaluation
result list.  The error constructors deliver no result. -/
inductive EvalOutcome
  | condError (e : String)
  | failure (err : ActivityError)
  | ok (result : List FlowRecord)
deriving DecidableEq, Repr

structure EvalParams where
  activityId : String
  outboundFlows : List Flow
  fromMessage : SourceMessage
  discardRestAtTake : Bool
deriving DecidableEq, Repr

def noTakenMessage (activityId : String) : String :=
  "<" ++ activityId ++ "> no conditional flow taken"

/-- JS object assignment `result[k] = v`: replace in place when the key
exists, append otherwise (ids are non-numeric, so `Object.values`
preserves this insertion order). -/
def setKey (m : List (String × FlowRecord)) (k : String) (v : FlowRecord) :
    List (String × FlowRecord) :=
  if m.any fun p => p.1 = k then m.map fun p => if p.1 = k then (k, v) else p
  else m ++ [(k, v)]

/-- `OutboundEvaluator.prototype.completed`: cancel the evaluation consumer,
surface a pending error, fail with `no conditional flow taken` when nothing
was taken although outbound flows exist, else deliver `Object.values` of
the result map with the source `message` payload merged into each record. -/
def completed (p : EvalParams) (result : List (String × FlowRecord)) (takenCount : Nat)
    (err : Option String) : EvalOutcome :=
  match err with
  | some e => .condError e
  | none =>
      if takenCount = 0 ∧ p.outboundFlows.length ≠ 0 then
        .failure { message := noTakenMessage p.activityId, source := p.fromMessage }
      else
        .ok (result.map fun pr => { pr.2 with message := p.fromMessage.content.message })

/-- `OutboundEvaluator.prototype.evaluateFlow` together with the publish /
consume round-trip to `onEvaluated`: a default flow and a flow without a
condition yield `take` without touching any condition; otherwise the
condition executes and either errs or yields `take` / `discard` with the
`result` and `evaluationId` fields set. -/
def evaluateFlowRecord (p : EvalParams) (flow : Flow) : Except String FlowRecord :=
  if flow.isDefault then .ok (formatFlowAction flow "take" none none)
  else
    match flow.condition with
    | none => .ok (formatFlowAction flow "take" none none)
    | some (.failed e) => .error e
    | some (.value b) =>
        .ok (formatFlowAction flow (if b then "take" else "discard") (some b)
              (some p.fromMessage.content.executionId))

/-- The `do { ... } while` loop that marks every remaining flow `discard`
once `discardRestAtTake` has been triggered. -/
def discardRemaining (m : List (String × FlowRecord)) (flows : List Flow) :
    List (String × FlowRecord) :=
  flows.foldl (fun acc f => setKey acc f.id (formatFlowAction f "discard" none none)) m

/-- The evaluator's outcome plus the trace of flow ids whose condition was
actually executed. -/
structure EvalRun where
  outcome : EvalOutcome
  executed : List String
deriving DecidableEq, Repr

/-- The evaluation loop of `OutboundEvaluator.prototype.onEvaluated`: record
the evaluation of `current`, then either finish, short-circuit the
remaining flows, or evaluate the next flow. -/
def evalLoop (p : EvalParams) :
    List (String × FlowRecord) → Bool → Nat → List String → Flow → List Flow → EvalRun
  | m, conditionMet, takenCount, executed, current, pending =>
    let executed' :=
      if current.isDefault = false ∧ current.condition.isSome then executed ++ [current.id]
      else executed
    match evaluateFlowRecord p current with
    | .error e => { outcome := completed p m takenCount (some e), executed := executed' }
    | .ok r0 =>
      let takenCount' := if r0.action = "take" then takenCount + 1 else takenCount
      let conditionMet' := conditionMet || decide (r0.action = "take")
      let m' := setKey m current.id r0
      match pending with
      | [] => { outcome := completed p m' takenCount' none, executed := executed' }
      | next :: rest =>
        if p.discardRestAtTake = true ∧ conditionMet' = true then
          { outcome := completed p (discardRemaining m' (next :: rest)) takenCount' none,
            executed := executed' }
        else if conditionMet' = true ∧ next.isDefault = true then
          { outcome :=
              completed p (setKey m' next.id (formatFlowAction next "discard" none none))
                takenCount' none,
            executed := executed' }
        else evalLoop p m' conditionMet' takenCount' executed' next rest

/-- The constructor's reordering of the working copy: the first default
flow, when present, is spliced out and pushed last. -/
def reorderDefaultLast (flows : List Flow) : List Flow :=
  match flows.findIdx? fun f => f.isDefault with
  | none => flows
  | some i =>
      match flows.get? i with
      | none => flows.eraseIdx i
      | some f => flows.eraseIdx i ++ [f]

/-- `OutboundEvaluator.prototype.evaluate` (as exposed by
`Activity.prototype.evaluateOutbound`): complete immediately when there are
no outbound flows, else walk the reordered working copy. -/
def evaluateOutbound (activityId : String) (outboundFlows : List Flow)
    (fromMessage : SourceMessage) (discardRestAtTake : Bool) : EvalRun :=
  let p : EvalParams :=
    { activityId := activityId, outboundFlows := outboundFlows,
      fromMessage := fromMessage, discardRestAtTake := discardRestAtTake }
  match reorderDefaultLast outboundFlows with
  | [] => { outcome := completed p [] 0 none, executed := [] }
  | f :: rest => evalLoop p [] false 0 [] f rest

/-- Number of records with action `take` in an evaluation result. -/
def countTakes (result : List FlowRecord) : Nat :=
  (result.filter fun r => r.action = "take").length

/-- Number of entries with action `take` in the evaluator's result map. -/
def mapTakes (m : List (String × FlowRecord)) : Nat :=
  (m.filter fun kv => kv.2.action = "take").length

/-- Concatenation of all discard sequences carried by the collected
messages, in message order; used to state order preservation of the merge. -/
def flattenDiscardSequences (messages : List JoinMessage) : List String :=
  (messages.map fun im => im.content.discardSequence.getD []).flatten

/-- `mergeDiscardSequence` with an explicit accumulator, for induction. -/
def mergeDiscardFrom (acc : List String) (messages : List JoinMessage) : List String :=
  messages.foldl
    (fun result im =>
      match im.content.discardSequence with
      | none => result
      | some ds =>
          ds.foldl (fun r sourceId => if sourceId ∈ r then r else r ++ [sourceId]) result)
    acc

/-- A non-default flow whose evaluation yields `take`: no condition
attached, or a condition producing a truthy result. -/
def takeish (f : Flow) : Prop :=
  f.isDefault = false ∧ (f.condition = none ∨ f.condition = some (.value true))

/-- Shorthand for the executed-conditions trace after one step. -/
def executedAfter (ex : List String) (f : Flow) : List String :=
  if f.isDefault = false ∧ f.condition.isSome = true then ex ++ [f.id] else ex

/-! ## Helper lemmas for the run-queue state machine -/

lemma counters_step_sum (s : RunState) (k : String) (r : Bool) :
    (continueRunMessage s k r).1.counters.taken +
      (continueRunMessage s k r).1.counters.discarded =
    s.counters.taken + s.counters.discarded + (if isCompletion s k then 1 else 0) := by
  unfold continueRunMessage executeCase isCompletion
  split <;> (repeat' split) <;> simp_all <;> omega

lemma counters_monotone (s : RunState) (k : String) (r : Bool) :
    s.counters.taken ≤ (continueRunMessage s k r).1.counters.taken ∧
      s.counters.discarded ≤ (continueRunMessage s k r).1.counters.discarded := by
  unfold continueRunMessage executeCase
  split <;> (repeat' split) <;> simp_all

lemma trace_sum (s : RunState) (msgs : List (String × Bool)) :
    (runTrace s msgs).counters.taken + (runTrace s msgs).counters.discarded =
      s.counters.taken + s.counters.discarded + completionCount s msgs := by
  induction msgs generalizing s with
  | nil => simp [runTrace, completionCount]
  | cons h t ih =>
      obtain ⟨k, r⟩ := h
      simp only [runTrace, completionCount]
      rw [ih]
      have := counters_step_sum s k r
      omega

/-! ## Helper lemmas for the merged discard sequence -/

lemma mergeDiscardSequence_eq (messages : List JoinMessage) :
    mergeDiscardSequence messages = mergeDiscardFrom [] messages := rfl

lemma insertFold_mem (xs : List String) :
    ∀ (acc : List String) (y : String),
      (y ∈ xs.foldl (fun r sourceId => if sourceId ∈ r then r else r ++ [sourceId]) acc) ↔
        y ∈ acc ∨ y ∈ xs := by
  induction xs with
  | nil => simp
  | cons x t ih =>
      intro acc y
      simp only [List.foldl_cons]
      by_cases hx : x ∈ acc
      · rw [if_pos hx, ih]
        simp only [List.mem_cons]
        constructor
        · rintro (h | h)
          · exact Or.inl h
          · exact Or.inr (Or.inr h)
        · rintro (h | rfl | h)
          · exact Or.inl h
          · exact Or.inl hx
          · exact Or.inr h
      · rw [if_neg hx, ih]
        simp only [List.mem_append, List.mem_singleton, List.mem_cons]
        tauto

lemma insertFold_nodup (xs : List String) :
    ∀ acc : List String, acc.Nodup →
      (xs.foldl (fun r sourceId => if sourceId ∈ r then r else r ++ [sourceId]) acc).Nodup := by
  induction xs with
  | nil => intro acc h; simpa using h
  | cons x t ih =>
      intro acc h
      simp only [List.foldl_cons]
      by_cases hx : x ∈ acc
      · rw [if_pos hx]; exact ih acc h
      · rw [if_neg hx]
        refine ih (acc ++ [x]) ?_
        rw [List.nodup_append]
        exact ⟨h, List.nodup_singleton x, by
          intro a ha hb
          rw [List.mem_singleton] at hb
          subst hb
          exact hx ha⟩

lemma insertFold_split (xs : List String) :
    ∀ acc : List String, ∃ s,
      xs.foldl (fun r sourceId => if sourceId ∈ r then r else r ++ [sourceId]) acc =
        acc ++ s ∧ s.Sublist xs := by
  induction xs with
  | nil => intro acc; exact ⟨[], by simp⟩
  | cons x t ih =>
      intro acc
      simp only [List.foldl_cons]
      by_cases hx : x ∈ acc
      · rw [if_pos hx]
        obtain ⟨s, hs, hsub⟩ := ih acc
        exact ⟨s, hs, hsub.cons x⟩
      · rw [if_neg hx]
        obtain ⟨s, hs, hsub⟩ := ih (acc ++ [x])
        refine ⟨x :: s, ?_, hsub.cons₂ x⟩
        rw [hs, List.append_assoc]
        rfl

lemma mergeDiscardFrom_mem (messages : List JoinMessage) :
    ∀ (acc : List String) (y : String),
      y ∈ mergeDiscardFrom acc messages ↔
        y ∈ acc ∨ ∃ im ∈ messages, ∃ l, im.content.discardSequence = some l ∧ y ∈ l := by
  induction messages with
  | nil => intro acc y; simp [mergeDiscardFrom]
  | cons im t ih =>
      intro acc y
      have hstep : mergeDiscardFrom acc (im :: t) =
          mergeDiscardFrom
            (match im.content.discardSequence with
             | none => acc
             | some ds =>
                 ds.foldl (fun r sourceId => if sourceId ∈ r then r else r ++ [sourceId]) acc)
            t := rfl
      rw [hstep]
      cases hds : im.content.discardSequence with
      | none =>
          rw [ih]
          simp only [List.mem_cons]
          constructor
          · rintro (h | h)
            · exact Or.inl h
            · obtain ⟨im', him', l, hl, hy⟩ := h
              exact Or.inr ⟨im', Or.inr him', l, hl, hy⟩
          · rintro (h | h)
            · exact Or.inl h
            · obtain ⟨im', him', l, hl, hy⟩ := h
              rcases him' with rfl | him'
              · rw [hds] at hl; cases hl
              · exact Or.inr ⟨im', him', l, hl, hy⟩
      | some ds =>
          rw [ih, insertFold_mem]
          simp only [List.mem_cons]
          constructor
          · rintro ((h | h) | h)
            · exact Or.inl h
            · exact Or.inr ⟨im, Or.inl rfl, ds, hds, h⟩
            · obtain ⟨im', him', l, hl, hy⟩ := h
              exact Or.inr ⟨im', Or.inr him', l, hl, hy⟩
          · rintro (h | h)
            · exact Or.inl (Or.inl h)
            · obtain ⟨im', him', l, hl, hy⟩ := h
              rcases him' with rfl | him'
              · rw [hds] at hl
                cases hl
                exact Or.inl (Or.inr hy)
              · exact Or.inr ⟨im', him', l, hl, hy⟩

lemma mergeDiscardFrom_nodup (messages : List JoinMessage) :
    ∀ acc : List String, acc.Nodup → (mergeDiscardFrom acc messages).Nodup := by
  induction messages with
  | nil => intro acc h; simpa [mergeDiscardFrom] using h
  | cons im t ih =>
      intro acc h
      have hstep : mergeDiscardFrom acc (im :: t) =
          mergeDiscardFrom
            (match im.content.discardSequence with
             | none => acc
             | some ds =>
                 ds.foldl (fun r sourceId => if sourceId ∈ r then r else r ++ [sourceId]) acc)
            t := rfl
      rw [hstep]
      cases hds : im.content.discardSequence with
      | none => simp only [hds]; exact ih acc h
      | some ds => simp only [hds]; exact ih _ (insertFold_nodup ds acc h)

lemma mergeDiscardFrom_split (messages : List JoinMessage) :
    ∀ acc : List String, ∃ s,
      mergeDiscardFrom acc messages = acc ++ s ∧ s.Sublist (flattenDiscardSequences messages) := by
  induction messages with
  | nil => intro acc; exact ⟨[], by simp [mergeDiscardFrom, flattenDiscardSequences]⟩
  | cons im t ih =>
      intro acc
      have hstep : mergeDiscardFrom acc (im :: t) =
          mergeDiscardFrom
            (match im.content.discardSequence with
             | none => acc
             | some ds =>
                 ds.foldl (fun r sourceId => if sourceId ∈ r then r else r ++ [sourceId]) acc)
            t := rfl
      have hflat : flattenDiscardSequences (im :: t) =
          im.content.discardSequence.getD [] ++ flattenDiscardSequences t := by
        simp [flattenDiscardSequences]
      rw [hstep, hflat]
      cases hds : im.content.discardSequence with
      | none =>
          obtain ⟨s, hs, hsub⟩ := ih acc
          exact ⟨s, by simpa [hds] using hs, by simpa using hsub.append_left []⟩
      | some ds =>
          obtain ⟨s1, hs1, hsub1⟩ := insertFold_split ds acc
          obtain ⟨s2, hs2, hsub2⟩ := ih (acc ++ s1)
          refine ⟨s1 ++ s2, ?_, ?_⟩
          · simp only [hds]
            rw [hs1, hs2, List.append_assoc]
          · simpa [hds] using hsub1.append hsub2

/-!  ## Claim theorems: counters, redelivery, guards, execution ids -/

/-- C1: consuming a `run.end` while the status is not already `end`
increments `counters.taken` by one and leaves `counters.discarded`;
consuming `run.discarded` increments `counters.discarded` by one and leaves
`counters.taken`; no consumption step ever decreases either counter; and
over any trace of consumed run messages the counter sum grows by exactly
the number of run completions (a non-already-ended `run.end` or a
`run.discarded`), so after n completed runs `taken + discarded = n`. -/
theorem c1_counters :
    (∀ s r, s.status ≠ some "end" →
       (continueRunMessage s "run.end" r).1.counters =
         { taken := s.counters.taken + 1, discarded := s.counters.discarded }) ∧
    (∀ s r,
       (continueRunMessage s "run.discarded" r).1.counters =
         { taken := s.counters.taken, discarded := s.counters.discarded + 1 }) ∧
    (∀ s k r, s.counters.taken ≤ (continueRunMessage s k r).1.counters.taken ∧
       s.counters.discarded ≤ (continueRunMessage s k r).1.counters.discarded) ∧
    (∀ s msgs,
       (runTrace s msgs).counters.taken + (runTrace s msgs).counters.discarded =
         s.counters.taken + s.counters.discarded + completionCount s msgs) := by
  refine ⟨?_, ?_, counters_monotone, trace_sum⟩
  · intro s r h
    simp only [continueRunMessage]
    rw [if_neg h]
    cases r <;> simp
  · intro s r
    simp only [continueRunMessage]
    cases r <;> simp

/-- Witness for C1 at concrete inputs. -/
theorem c1_counters_witness :
    (⟨some "started", ⟨0, 0⟩, false⟩ : RunState).status ≠ some "end" ∧
    (continueRunMessage ⟨some "started", ⟨0, 0⟩, false⟩ "run.end" false).1.counters =
      { taken := 0 + 1, discarded := 0 } :=
  ⟨by decide, c1_counters.1 ⟨some "started", ⟨0, 0⟩, false⟩ false (by decide)⟩

/-- C8 counterexample: a redelivered `run.error` message still publishes an
`activity.error` event on the event exchange, so the claim that no
`activity.*` event is published for any redelivered run message is false. -/
theorem c8_redelivered_error_event :
    publishedEvents (continueRunMessage ⟨some "error", ⟨0, 0⟩, false⟩ "run.error" true).2 =
      ["error"] ∧
    publishedEvents (continueRunMessage ⟨some "error", ⟨0, 0⟩, false⟩ "run.error" true).2 ≠
      [] := by
  decide

/-- C8 as amended: for every redelivered run-queue message other than
`run.error` the consumer publishes no `activity.*` event while still
performing the same status transition as a fresh delivery would (except
`run.execute.passthrough`, which on redelivery falls through to
`run.execute`); a redelivered `run.error` still publishes exactly the
`activity.error` event. -/
theorem c8_redelivery_suppression :
    (∀ s k, k ≠ "run.error" →
       publishedEvents (continueRunMessage s k true).2 = []) ∧
    (∀ s, publishedEvents (continueRunMessage s "run.error" true).2 = ["error"]) ∧
    (∀ s k, k ≠ "run.execute.passthrough" →
       (continueRunMessage s k true).1.status = (continueRunMessage s k false).1.status) := by
  refine ⟨?_, ?_, ?_⟩
  · intro s k hk
    unfold continueRunMessage executeCase
    split <;> simp_all [publishedEvents] <;> split <;> simp_all [publishedEvents]
  · intro s
    simp [continueRunMessage, publishedEvents]
  · intro s k hk
    unfold continueRunMessage executeCase
    split <;> simp_all <;> split <;> simp_all

/-- Witness for C8's amended theorem at a concrete input. -/
theorem c8_redelivery_suppression_witness :
    ("run.end" ≠ "run.error") ∧
    publishedEvents (continueRunMessage ⟨some "started", ⟨2, 1⟩, true⟩ "run.end" true).2 = [] :=
  ⟨by decide, c8_redelivery_suppression.1 ⟨some "started", ⟨2, 1⟩, true⟩ "run.end" (by decide)⟩

/-- C9: calling `run` while the activity is running throws synchronously,
`recover` while running throws synchronously, and `resume` while consuming
throws synchronously; a thrown outcome carries no broker publication (the
`OpResult.threw` constructor has no published messages). -/
theorem c9_programmer_errors :
    ∀ s activityId,
      (isRunning s = true →
         runOperation activityId s =
           .threw ("activity <" ++ activityId ++ "> is already running")) ∧
      (isRunning s = true →
         recoverOperation activityId s =
           .threw ("cannot recover running activity <" ++ activityId ++ ">")) ∧
      (s.consuming = true →
         resumeOperation activityId s =
           .threw ("cannot resume running activity <" ++ activityId ++ ">")) := by
  intro s activityId
  refine ⟨fun h => ?_, fun h => ?_, fun h => ?_⟩ <;>
    simp [runOperation, recoverOperation, resumeOperation, h]

/-- Witness for C9 at a running, consuming state. -/
theorem c9_programmer_errors_witness :
    isRunning ⟨true, some "entered"⟩ = true ∧
    runOperation "task1" ⟨true, some "entered"⟩ =
      .threw ("activity <" ++ "task1" ++ "> is already running") ∧
    recoverOperation "task1" ⟨true, some "entered"⟩ =
      .threw ("cannot recover running activity <" ++ "task1" ++ ">") ∧
    resumeOperation "task1" ⟨true, some "entered"⟩ =
      .threw ("cannot resume running activity <" ++ "task1" ++ ">") :=
  ⟨by decide,
   (c9_programmer_errors ⟨true, some "entered"⟩ "task1").1 (by decide),
   (c9_programmer_errors ⟨true, some "entered"⟩ "task1").2.1 (by decide),
   (c9_programmer_errors ⟨true, some "entered"⟩ "task1").2.2 (by decide)⟩

/-- C10: after `init`, both `run` and `_runDiscard` adopt the execution id
that `init` announced in the `activity.init` event, and clear
`initExecutionId`; a subsequent `run` without a new `init` generates a
fresh id different from the first. -/
theorem c10_execution_id_handoff
    (activityId : String) (e : ExecSlot) (g : IdGen) (h : e.wellFormed g)
    (announced : UniqueId) (e1 : ExecSlot) (g1 : IdGen)
    (h1 : initOperation activityId e g = (announced, e1, g1))
    (runId : UniqueId) (e2 : ExecSlot) (g2 : IdGen)
    (h2 : runAssignExecutionId activityId e1 g1 = (runId, e2, g2)) :
    runId = announced ∧
    e2.initExecutionId = none ∧
    e2.executionId = some announced ∧
    (runAssignExecutionId activityId e2 g2).1 ≠ announced ∧
    (runDiscardAssignExecutionId activityId e1 g1).1 = announced ∧
    (runDiscardAssignExecutionId activityId e1 g1).2.1.initExecutionId = none := by
  obtain ⟨hinit, _⟩ := h
  cases he : e.initExecutionId with
  | some x =>
      have hx : x.serial < g.counter := hinit x he
      simp only [initOperation, he] at h1
      injection h1 with ha h1'
      injection h1' with hb hc
      subst ha; subst hb; subst hc
      simp only [runAssignExecutionId, he] at h2
      injection h2 with ha2 h2'
      injection h2' with hb2 hc2
      subst ha2; subst hb2; subst hc2
      refine ⟨rfl, rfl, rfl, ?_, by simp [runDiscardAssignExecutionId, he],
        by simp [runDiscardAssignExecutionId, he]⟩
      simp only [runAssignExecutionId, getUniqueId]
      intro hne
      have hserial : g.counter = x.serial := congrArg UniqueId.serial hne
      omega
  | none =>
      simp only [initOperation, he, getUniqueId] at h1
      injection h1 with ha h1'
      injection h1' with hb hc
      subst ha; subst hb; subst hc
      simp only [runAssignExecutionId] at h2
      injection h2 with ha2 h2'
      injection h2' with hb2 hc2
      subst ha2; subst hb2; subst hc2
      refine ⟨rfl, rfl, rfl, ?_, by simp [runDiscardAssignExecutionId],
        by simp [runDiscardAssignExecutionId]⟩
      simp only [runAssignExecutionId, getUniqueId]
      intro hne
      have hserial : g.counter + 1 = g.counter := congrArg UniqueId.serial hne
      omega

/-- Witness for C10 on a fresh activity. -/
theorem c10_execution_id_handoff_witness :
    (⟨none, none⟩ : ExecSlot).wellFormed ⟨0⟩ ∧
    initOperation "task" ⟨none, none⟩ ⟨0⟩ = (⟨"task", 0⟩, ⟨some ⟨"task", 0⟩, none⟩, ⟨1⟩) ∧
    runAssignExecutionId "task" ⟨some ⟨"task", 0⟩, none⟩ ⟨1⟩ =
      (⟨"task", 0⟩, ⟨none, some ⟨"task", 0⟩⟩, ⟨1⟩) ∧
    ((⟨"task", 0⟩ : UniqueId) = ⟨"task", 0⟩ ∧
     (⟨none, some ⟨"task", 0⟩⟩ : ExecSlot).initExecutionId = none ∧
     (⟨none, some ⟨"task", 0⟩⟩ : ExecSlot).executionId = some ⟨"task", 0⟩ ∧
     (runAssignExecutionId "task" ⟨none, some ⟨"task", 0⟩⟩ ⟨1⟩).1 ≠ ⟨"task", 0⟩ ∧
     (runDiscardAssignExecutionId "task" ⟨some ⟨"task", 0⟩, none⟩ ⟨1⟩).1 = ⟨"task", 0⟩ ∧
     (runDiscardAssignExecutionId "task" ⟨some ⟨"task", 0⟩, none⟩ ⟨1⟩).2.1.initExecutionId =
       none) :=
  ⟨⟨by simp, by simp⟩, by decide, by decide,
   c10_execution_id_handoff "task" ⟨none, none⟩ ⟨0⟩ ⟨by simp, by simp⟩
     ⟨"task", 0⟩ ⟨some ⟨"task", 0⟩, none⟩ ⟨1⟩ (by decide)
     ⟨"task", 0⟩ ⟨none, some ⟨"task", 0⟩⟩ ⟨1⟩ (by decide)⟩

/-- C3: the parallel-join consumer pushes an arriving message onto
`inboundJoinFlows` before the duplicate check returns, so with three
inbound triggers the arrivals A, A, B leave two buffered messages for
source id A and then dispatch, although only two distinct source-flow ids
(not three) have been seen.  This contradicts the documented join protocol
(at most one buffered message per distinct source id, dispatch at the
first point where the distinct ids equal the trigger count). -/
theorem c3_join_duplicate_bug :
    onJoinInbound [] 3 ⟨"flow.take", ⟨"A", none⟩⟩ =
      .noDispatch [⟨"flow.take", ⟨"A", none⟩⟩] ∧
    onJoinInbound [⟨"flow.take", ⟨"A", none⟩⟩] 3 ⟨"flow.take", ⟨"A", none⟩⟩ =
      .noDispatch [⟨"flow.take", ⟨"A", none⟩⟩, ⟨"flow.take", ⟨"A", none⟩⟩] ∧
    (distinctIds [⟨"flow.take", ⟨"A", none⟩⟩, ⟨"flow.take", ⟨"A", none⟩⟩]).length = 1 ∧
    onJoinInbound [⟨"flow.take", ⟨"A", none⟩⟩, ⟨"flow.take", ⟨"A", none⟩⟩] 3
        ⟨"flow.take", ⟨"B", none⟩⟩ =
      .dispatchRun []
        [⟨"flow.take", ⟨"A", none⟩⟩, ⟨"flow.take", ⟨"A", none⟩⟩, ⟨"flow.take", ⟨"B", none⟩⟩]
        [⟨"A", none⟩, ⟨"A", none⟩, ⟨"B", none⟩] ∧
    (distinctIds
        [⟨"flow.take", ⟨"A", none⟩⟩, ⟨"flow.take", ⟨"A", none⟩⟩,
         ⟨"flow.take", ⟨"B", none⟩⟩]).length = 2 ∧
    (2 : Nat) ≠ 3 := by
  decide

/-- C4: when the parallel join dispatches, the new buffer is empty, every
collected message was acknowledged (all of them, before the dispatch call),
and: if any collected message arrived with routing key `flow.take` the
activity runs with the full collected buffer's contents as `inbound`;
otherwise it run-discards with a `discardSequence` that is the duplicate-free
order-preserving union (a sublist of the concatenation) of the collected
messages' discard sequences. -/
theorem c4_join_dispatch (buffer : List JoinMessage) (n : Nat) (message : JoinMessage) :
    (∀ buf acked inbound,
       onJoinInbound buffer n message = .dispatchRun buf acked inbound →
         buf = [] ∧ acked = buffer ++ [message] ∧
         inbound = (buffer ++ [message]).map (fun im => im.content) ∧
         ∃ im ∈ buffer ++ [message], im.routingKey = "flow.take") ∧
    (∀ buf acked inbound ds,
       onJoinInbound buffer n message = .dispatchDiscard buf acked inbound ds →
         buf = [] ∧ acked = buffer ++ [message] ∧
         inbound = (buffer ++ [message]).map (fun im => im.content) ∧
         (∀ im ∈ buffer ++ [message], im.routingKey ≠ "flow.take") ∧
         ds = mergeDiscardSequence (buffer ++ [message]) ∧
         ds.Nodup ∧
         (∀ x, x ∈ ds ↔ ∃ im ∈ buffer ++ [message], ∃ l,
            im.content.discardSequence = some l ∧ x ∈ l) ∧
         ds.Sublist (flattenDiscardSequences (buffer ++ [message]))) := by
  constructor
  · intro buf acked inbound h
    unfold onJoinInbound at h
    dsimp only at h
    split at h
    · cases h
    · split at h
      · cases h
      · split at h
        · rename_i htaken
          injection h with h1 h2 h3
          subst h1; subst h2; subst h3
          refine ⟨rfl, rfl, rfl, ?_⟩
          simpa using List.any_eq_true.mp htaken
        · cases h
  · intro buf acked inbound ds h
    unfold onJoinInbound at h
    dsimp only at h
    split at h
    · cases h
    · split at h
      · cases h
      · split at h
        · cases h
        · rename_i htaken
          injection h with h1 h2 h3 h4
          subst h1; subst h2; subst h3; subst h4
          refine ⟨rfl, rfl, rfl, ?_, rfl, ?_, ?_, ?_⟩
          · intro im him
            have hfalse := List.any_eq_false.mp (Bool.of_not_eq_true htaken) im him
            simpa using hfalse
          · rw [mergeDiscardSequence_eq]
            exact mergeDiscardFrom_nodup _ [] List.nodup_nil
          · intro x
            rw [mergeDiscardSequence_eq, mergeDiscardFrom_mem]
            simp
          · rw [mergeDiscardSequence_eq]
            obtain ⟨s, hs, hsub⟩ := mergeDiscardFrom_split (buffer ++ [message]) []
            rw [hs]
            simpa using hsub

/-- Witness for C4: a concrete discard wave merging overlapping discard
sequences. -/
theorem c4_join_dispatch_witness :
    onJoinInbound [⟨"flow.discard", ⟨"A", some ["x", "y"]⟩⟩] 2
        ⟨"flow.discard", ⟨"B", some ["y", "z"]⟩⟩ =
      .dispatchDiscard []
        [⟨"flow.discard", ⟨"A", some ["x", "y"]⟩⟩, ⟨"flow.discard", ⟨"B", some ["y", "z"]⟩⟩]
        [⟨"A", some ["x", "y"]⟩, ⟨"B", some ["y", "z"]⟩]
        ["x", "y", "z"] ∧
    (["x", "y", "z"] : List String).Nodup ∧
    (["x", "y", "z"] : List String).Sublist
      (flattenDiscardSequences
        [⟨"flow.discard", ⟨"A", some ["x", "y"]⟩⟩,
         ⟨"flow.discard", ⟨"B", some ["y", "z"]⟩⟩]) :=
  ⟨by decide,
   (((c4_join_dispatch [⟨"flow.discard", ⟨"A", some ["x", "y"]⟩⟩] 2
        ⟨"flow.discard", ⟨"B", some ["y", "z"]⟩⟩).2 []
        [⟨"flow.discard", ⟨"A", some ["x", "y"]⟩⟩, ⟨"flow.discard", ⟨"B", some ["y", "z"]⟩⟩]
        [⟨"A", some ["x", "y"]⟩, ⟨"B", some ["y", "z"]⟩]
        ["x", "y", "z"] (by decide)).2.2.2.2.2).1,
   (((c4_join_dispatch [⟨"flow.discard", ⟨"A", some ["x", "y"]⟩⟩] 2
        ⟨"flow.discard", ⟨"B", some ["y", "z"]⟩⟩).2 []
        [⟨"flow.discard", ⟨"A", some ["x", "y"]⟩⟩, ⟨"flow.discard", ⟨"B", some ["y", "z"]⟩⟩]
        [⟨"A", some ["x", "y"]⟩, ⟨"B", some ["y", "z"]⟩]
        ["x", "y", "z"] (by decide)).2.2.2.2.2).2.2⟩

/-! ## Helper lemmas for the outbound evaluator -/

lemma setKey_fresh (m : List (String × FlowRecord)) (k : String) (v : FlowRecord)
    (h : ∀ p ∈ m, p.1 ≠ k) : setKey m k v = m ++ [(k, v)] := by
  unfold setKey
  rw [if_neg]
  intro hany
  obtain ⟨q, hq, hqk⟩ := List.any_eq_true.mp hany
  exact h q hq (of_decide_eq_true hqk)

lemma setKey_self_mem (m : List (String × FlowRecord)) (k : String) (v : FlowRecord) :
    (k, v) ∈ setKey m k v := by
  unfold setKey
  split
  · rename_i hany
    obtain ⟨q, hq, hqk⟩ := List.any_eq_true.mp hany
    refine List.mem_map.mpr ⟨q, hq, ?_⟩
    rw [if_pos (of_decide_eq_true hqk)]
  · exact List.mem_append.mpr (Or.inr (by simp))

lemma reorderDefaultLast_cons (f : Flow) (rest : List Flow) :
    reorderDefaultLast (f :: rest) =
      if f.isDefault then rest ++ [f] else f :: reorderDefaultLast rest := by
  unfold reorderDefaultLast
  rw [List.findIdx?_cons]
  cases h : f.isDefault with
  | true => simp
  | false =>
      simp only [Bool.false_eq_true, if_false]
      rw [List.findIdx?_succ]
      cases h2 : rest.findIdx? (fun f => f.isDefault) with
      | none => simp
      | some i =>
          simp only [Option.map_some']
          rw [List.get?_cons_succ, List.eraseIdx_cons_succ]
          cases h3 : rest.get? i with
          | none => simp
          | some g => simp

lemma reorder_no_default (flows : List Flow) (h : ∀ f ∈ flows, f.isDefault = false) :
    reorderDefaultLast flows = flows := by
  induction flows with
  | nil => rfl
  | cons f rest ih =>
      rw [reorderDefaultLast_cons, if_neg (by simp [h f (by simp)]),
        ih fun g hg => h g (by simp [hg])]

lemma reorder_unique_default (flows : List Flow) (d : Flow) (hd : d.isDefault = true)
    (hmem : d ∈ flows) (huniq : ∀ f ∈ flows, f.isDefault = true → f = d)
    (hnodup : (flows.map Flow.id).Nodup) :
    reorderDefaultLast flows = (flows.filter fun f => !f.isDefault) ++ [d] := by
  induction flows with
  | nil => cases hmem
  | cons f rest ih =>
      rw [reorderDefaultLast_cons]
      simp only [List.map_cons, List.nodup_cons] at hnodup
      by_cases hf : f.isDefault
      · have hfd : f = d := huniq f (by simp) (by simpa using hf)
        subst hfd
        rw [if_pos hf]
        have hrest : ∀ g ∈ rest, g.isDefault = false := by
          intro g hg
          by_contra hgd
          have : g = f := huniq g (by simp [hg]) (by simpa using hgd)
          subst this
          exact hnodup.1 (List.mem_map.mpr ⟨g, hg, rfl⟩)
        rw [List.filter_cons_of_neg (by simpa using hf)]
        rw [List.filter_eq_self.mpr fun g hg => by simpa using hrest g hg]
      · have hfd : f ≠ d := fun he => by rw [he, hd] at hf; exact hf rfl
        have hmem' : d ∈ rest := by
          rcases List.mem_cons.mp hmem with he | hm
          · exact absurd he.symm hfd
          · exact hm
        rw [if_neg hf,
          ih hmem' (fun g hg hgd => huniq g (by simp [hg]) hgd) hnodup.2,
          List.filter_cons_of_pos (by simpa using hf)]
        rfl

lemma reorder_perm (flows : List Flow) : (reorderDefaultLast flows).Perm flows := by
  induction flows with
  | nil => rfl
  | cons f rest ih =>
      rw [reorderDefaultLast_cons]
      by_cases h : f.isDefault
      · rw [if_pos h]
        exact List.perm_append_singleton f rest
      · rw [if_neg h]
        exact ih.cons f

lemma reorder_ids_nodup (flows : List Flow) (h : (flows.map Flow.id).Nodup) :
    ((reorderDefaultLast flows).map Flow.id).Nodup :=
  (((reorder_perm flows).map Flow.id).nodup_iff).mpr h

/-- Walking a run of flows that are all non-default with a false condition
records a discard for each and ends in `completed` with the entry
`takenCount` untouched. -/
lemma evalLoop_all_false (p : EvalParams) (pending : List Flow) :
    ∀ (current : Flow) (m : List (String × FlowRecord)) (tc : Nat) (ex : List String),
      (∀ f ∈ current :: pending, f.isDefault = false ∧ f.condition = some (.value false)) →
      ∃ m' ex', evalLoop p m false tc ex current pending =
        { outcome := completed p m' tc none, executed := ex' } := by
  induction pending with
  | nil =>
      intro current m tc ex h
      obtain ⟨hd, hc⟩ := h current (by simp)
      refine ⟨setKey m current.id
        (formatFlowAction current "discard" (some false)
          (some p.fromMessage.content.executionId)), ex ++ [current.id], ?_⟩
      rw [evalLoop]
      simp [evaluateFlowRecord, hd, hc, formatFlowAction]
  | cons next rest ih =>
      intro current m tc ex h
      obtain ⟨hd, hc⟩ := h current (by simp)
      obtain ⟨m', ex', hrec⟩ := ih next
        (setKey m current.id
          (formatFlowAction current "discard" (some false)
            (some p.fromMessage.content.executionId)))
        tc (ex ++ [current.id])
        (fun f hf => h f (by
          rcases List.mem_cons.mp hf with rfl | hm
          · simp
          · simp [hm]))
      refine ⟨m', ex', ?_⟩
      rw [evalLoop]
      simpa [evaluateFlowRecord, hd, hc, formatFlowAction] using hrec

lemma completed_ok_of_pos (p : EvalParams) (m : List (String × FlowRecord)) (tc : Nat)
    (h : tc ≠ 0) :
    completed p m tc none =
      .ok (m.map fun pr => { pr.2 with message := p.fromMessage.content.message }) := by
  unfold completed
  rw [if_neg]
  rintro ⟨h0, _⟩
  exact h h0

/-- Evaluating a default flow as the last flow: its condition is not
executed, the record is a plain `take`, and the evaluation completes. -/
lemma evalLoop_default_final (p : EvalParams) (d : Flow) (hd : d.isDefault = true)
    (m : List (String × FlowRecord)) (cm : Bool) (tc : Nat) (ex : List String) :
    evalLoop p m cm tc ex d [] =
      { outcome := completed p (setKey m d.id (formatFlowAction d "take" none none))
          (tc + 1) none,
        executed := ex } := by
  rw [evalLoop]
  simp [evaluateFlowRecord, hd, formatFlowAction]

/-- Walking a run of all-false non-default flows merely accumulates discard
records: the loop continues into whatever follows with `conditionMet` still
false and `takenCount` untouched. -/
lemma evalLoop_all_false_prefix (p : EvalParams) (pending : List Flow) (t0 : Flow)
    (ts : List Flow) :
    ∀ (current : Flow) (m : List (String × FlowRecord)) (tc : Nat) (ex : List String),
      (∀ f ∈ current :: pending, f.isDefault = false ∧ f.condition = some (.value false)) →
      ∃ m' ex', evalLoop p m false tc ex current (pending ++ t0 :: ts) =
        evalLoop p m' false tc ex' t0 ts := by
  induction pending with
  | nil =>
      intro current m tc ex h
      obtain ⟨hd, hc⟩ := h current (by simp)
      refine ⟨setKey m current.id
        (formatFlowAction current "discard" (some false)
          (some p.fromMessage.content.executionId)), ex ++ [current.id], ?_⟩
      rw [evalLoop]
      simp [evaluateFlowRecord, hd, hc, formatFlowAction]
  | cons next rest ih =>
      intro current m tc ex h
      obtain ⟨hd, hc⟩ := h current (by simp)
      obtain ⟨m', ex', hrec⟩ := ih next
        (setKey m current.id
          (formatFlowAction current "discard" (some false)
            (some p.fromMessage.content.executionId)))
        tc (ex ++ [current.id])
        (fun f hf => h f (by
          rcases List.mem_cons.mp hf with rfl | hm
          · simp
          · simp [hm]))
      refine ⟨m', ex', ?_⟩
      rw [evalLoop]
      simpa [evaluateFlowRecord, hd, hc, formatFlowAction] using hrec

/-- Every id in the executed-conditions trace comes either from the entry
trace or from a non-default flow with a condition among the flows walked. -/
lemma evalLoop_executed_sub (p : EvalParams) (pending : List Flow) :
    ∀ (current : Flow) (m : List (String × FlowRecord)) (cm : Bool) (tc : Nat)
      (ex : List String) (x : String),
      x ∈ (evalLoop p m cm tc ex current pending).executed →
      x ∈ ex ∨ ∃ f ∈ current :: pending,
        f.isDefault = false ∧ f.condition.isSome = true ∧ f.id = x := by
  induction pending with
  | nil =>
      intro current m cm tc ex x hx
      rw [evalLoop] at hx
      by_cases hcd : current.isDefault = false ∧ current.condition.isSome = true
      · rw [if_pos hcd] at hx
        cases hefr : evaluateFlowRecord p current with
        | error e =>
            rw [hefr] at hx
            dsimp only at hx
            rcases List.mem_append.mp hx with hl | hr
            · exact Or.inl hl
            · exact Or.inr ⟨current, by simp, hcd.1, hcd.2, (List.mem_singleton.mp hr).symm⟩
        | ok r0 =>
            rw [hefr] at hx
            dsimp only at hx
            rcases List.mem_append.mp hx with hl | hr
            · exact Or.inl hl
            · exact Or.inr ⟨current, by simp, hcd.1, hcd.2, (List.mem_singleton.mp hr).symm⟩
      · rw [if_neg hcd] at hx
        cases hefr : evaluateFlowRecord p current with
        | error e => rw [hefr] at hx; exact Or.inl hx
        | ok r0 => rw [hefr] at hx; exact Or.inl hx
  | cons next rest ih =>
      intro current m cm tc ex x hx
      rw [evalLoop] at hx
      have hlift : x ∈ (if current.isDefault = false ∧ current.condition.isSome = true
          then ex ++ [current.id] else ex) →
          x ∈ ex ∨ ∃ f ∈ current :: next :: rest,
            f.isDefault = false ∧ f.condition.isSome = true ∧ f.id = x := by
        intro hx'
        split at hx'
        · rename_i hcd
          rcases List.mem_append.mp hx' with hl | hr
          · exact Or.inl hl
          · exact Or.inr ⟨current, by simp, hcd.1, hcd.2, (List.mem_singleton.mp hr).symm⟩
        · exact Or.inl hx'
      cases hefr : evaluateFlowRecord p current with
      | error e =>
          rw [hefr] at hx
          dsimp only at hx
          exact hlift hx
      | ok r0 =>
          rw [hefr] at hx
          dsimp only at hx
          split at hx
          · exact hlift hx
          · split at hx
            · exact hlift hx
            · rcases ih next _ _ _ _ x hx with hl | ⟨f, hf, h1, h2, h3⟩
              · exact hlift hl
              · exact Or.inr ⟨f, by
                  rcases List.mem_cons.mp hf with rfl | hm
                  · simp
                  · simp [hm], h1, h2, h3⟩

/-- A non-default flow whose condition cannot fail always yields an `ok`
record whose action is `take` or `discard`, with `take` forced for
`takeish` flows. -/
lemma evaluateFlowRecord_ok (p : EvalParams) (f : Flow) (hcd : f.isDefault = false)
    (hne : ∀ e, f.condition ≠ some (.failed e)) :
    ∃ r0, evaluateFlowRecord p f = .ok r0 ∧ r0.id = f.id ∧
      (r0.action = "take" ∨ r0.action = "discard") ∧
      (takeish f → r0.action = "take") := by
  unfold evaluateFlowRecord
  cases hc : f.condition with
  | none =>
      refine ⟨formatFlowAction f "take" none none, ?_, ?_, Or.inl ?_, fun _ => ?_⟩ <;>
        simp [hcd, formatFlowAction]
  | some co =>
      cases co with
      | failed e => exact absurd hc (hne e)
      | value b =>
          cases b with
          | false =>
              refine ⟨formatFlowAction f "discard" (some false)
                (some p.fromMessage.content.executionId), ?_, ?_, Or.inr ?_, ?_⟩
              · simp [hcd]
              · simp [formatFlowAction]
              · simp [formatFlowAction]
              · intro ht
                rcases ht.2 with h1 | h1 <;> rw [hc] at h1 <;> simp at h1
          | true =>
              refine ⟨formatFlowAction f "take" (some true)
                (some p.fromMessage.content.executionId), ?_, ?_, Or.inl ?_, fun _ => ?_⟩ <;>
                simp [hcd, formatFlowAction]

lemma evalLoop_step_final_take (p : EvalParams) (current : Flow)
    (m : List (String × FlowRecord)) (cm : Bool) (tc : Nat) (ex : List String)
    (r0 : FlowRecord) (hefr : evaluateFlowRecord p current = .ok r0)
    (ha : r0.action = "take") :
    evalLoop p m cm tc ex current [] =
      { outcome := completed p (setKey m current.id r0) (tc + 1) none,
        executed := executedAfter ex current } := by
  rw [evalLoop, hefr]
  simp [ha, executedAfter]

lemma evalLoop_step_final_discard (p : EvalParams) (current : Flow)
    (m : List (String × FlowRecord)) (cm : Bool) (tc : Nat) (ex : List String)
    (r0 : FlowRecord) (hefr : evaluateFlowRecord p current = .ok r0)
    (ha : r0.action = "discard") :
    evalLoop p m cm tc ex current [] =
      { outcome := completed p (setKey m current.id r0) tc none,
        executed := executedAfter ex current } := by
  rw [evalLoop, hefr]
  simp [ha, executedAfter]

lemma evalLoop_step_take_dr (p : EvalParams) (current next : Flow) (rest : List Flow)
    (m : List (String × FlowRecord)) (cm : Bool) (tc : Nat) (ex : List String)
    (r0 : FlowRecord) (hefr : evaluateFlowRecord p current = .ok r0)
    (ha : r0.action = "take") (hdr : p.discardRestAtTake = true) :
    evalLoop p m cm tc ex current (next :: rest) =
      { outcome := completed p
          (discardRemaining (setKey m current.id r0) (next :: rest)) (tc + 1) none,
        executed := executedAfter ex current } := by
  rw [evalLoop, hefr]
  simp [ha, hdr, executedAfter]

lemma evalLoop_step_take_nodr_default (p : EvalParams) (current next : Flow)
    (rest : List Flow) (m : List (String × FlowRecord)) (cm : Bool) (tc : Nat)
    (ex : List String) (r0 : FlowRecord) (hefr : evaluateFlowRecord p current = .ok r0)
    (ha : r0.action = "take") (hdr : p.discardRestAtTake = false)
    (hnd : next.isDefault = true) :
    evalLoop p m cm tc ex current (next :: rest) =
      { outcome := completed p
          (setKey (setKey m current.id r0) next.id
            (formatFlowAction next "discard" none none)) (tc + 1) none,
        executed := executedAfter ex current } := by
  rw [evalLoop, hefr]
  simp [ha, hdr, hnd, executedAfter]

lemma evalLoop_step_take_nodr_cont (p : EvalParams) (current next : Flow)
    (rest : List Flow) (m : List (String × FlowRecord)) (cm : Bool) (tc : Nat)
    (ex : List String) (r0 : FlowRecord) (hefr : evaluateFlowRecord p current = .ok r0)
    (ha : r0.action = "take") (hdr : p.discardRestAtTake = false)
    (hnd : next.isDefault = false) :
    evalLoop p m cm tc ex current (next :: rest) =
      evalLoop p (setKey m current.id r0) true (tc + 1)
        (executedAfter ex current) next rest := by
  rw [evalLoop, hefr]
  simp [ha, hdr, hnd, executedAfter]

lemma evalLoop_step_discard_cmfalse_cont (p : EvalParams) (current next : Flow)
    (rest : List Flow) (m : List (String × FlowRecord)) (tc : Nat)
    (ex : List String) (r0 : FlowRecord) (hefr : evaluateFlowRecord p current = .ok r0)
    (ha : r0.action = "discard") :
    evalLoop p m false tc ex current (next :: rest) =
      evalLoop p (setKey m current.id r0) false tc
        (executedAfter ex current) next rest := by
  rw [evalLoop, hefr]
  simp [ha, executedAfter]

lemma evalLoop_step_discard_cmtrue_dr (p : EvalParams) (current next : Flow)
    (rest : List Flow) (m : List (String × FlowRecord)) (tc : Nat)
    (ex : List String) (r0 : FlowRecord) (hefr : evaluateFlowRecord p current = .ok r0)
    (ha : r0.action = "discard") (hdr : p.discardRestAtTake = true) :
    evalLoop p m true tc ex current (next :: rest) =
      { outcome := completed p
          (discardRemaining (setKey m current.id r0) (next :: rest)) tc none,
        executed := executedAfter ex current } := by
  rw [evalLoop, hefr]
  simp [ha, hdr, executedAfter]

lemma evalLoop_step_discard_cmtrue_nodr_default (p : EvalParams) (current next : Flow)
    (rest : List Flow) (m : List (String × FlowRecord)) (tc : Nat)
    (ex : List String) (r0 : FlowRecord) (hefr : evaluateFlowRecord p current = .ok r0)
    (ha : r0.action = "discard") (hdr : p.discardRestAtTake = false)
    (hnd : next.isDefault = true) :
    evalLoop p m true tc ex current (next :: rest) =
      { outcome := completed p
          (setKey (setKey m current.id r0) next.id
            (formatFlowAction next "discard" none none)) tc none,
        executed := executedAfter ex current } := by
  rw [evalLoop, hefr]
  simp [ha, hdr, hnd, executedAfter]

lemma evalLoop_step_discard_cmtrue_nodr_cont (p : EvalParams) (current next : Flow)
    (rest : List Flow) (m : List (String × FlowRecord)) (tc : Nat)
    (ex : List String) (r0 : FlowRecord) (hefr : evaluateFlowRecord p current = .ok r0)
    (ha : r0.action = "discard") (hdr : p.discardRestAtTake = false)
    (hnd : next.isDefault = false) :
    evalLoop p m true tc ex current (next :: rest) =
      evalLoop p (setKey m current.id r0) true tc
        (executedAfter ex current) next rest := by
  rw [evalLoop, hefr]
  simp [ha, hdr, hnd, executedAfter]

lemma evalLoop_step_error (p : EvalParams) (current : Flow) (pending : List Flow)
    (m : List (String × FlowRecord)) (cm : Bool) (tc : Nat) (ex : List String)
    (e : String) (hefr : evaluateFlowRecord p current = .error e) :
    evalLoop p m cm tc ex current pending =
      { outcome := completed p m tc (some e), executed := executedAfter ex current } := by
  rw [evalLoop, hefr]
  simp [executedAfter]

lemma discardRemaining_append (m : List (String × FlowRecord)) (l : List Flow) (d : Flow) :
    discardRemaining m (l ++ [d]) =
      setKey (discardRemaining m l) d.id (formatFlowAction d "discard" none none) := by
  unfold discardRemaining
  rw [List.foldl_append]
  rfl

/-- Once some flow has been taken (or will be taken) strictly before the
trailing default flow, the evaluation completes without error, with a
positive take count, and the default flow's entry in the result map is a
plain `discard`. -/
lemma evalLoop_met_default (p : EvalParams) (d : Flow) (hd : d.isDefault = true)
    (body : List Flow) :
    ∀ (current : Flow) (m : List (String × FlowRecord)) (cm : Bool) (tc : Nat)
      (ex : List String),
      (∀ f ∈ current :: body, ∀ e, f.condition ≠ some (.failed e)) →
      (∀ f ∈ current :: body, f.isDefault = false) →
      (cm = true → 1 ≤ tc) →
      (cm = true ∨ ∃ f ∈ current :: body, takeish f) →
      ∃ m' tc' ex', evalLoop p m cm tc ex current (body ++ [d]) =
        { outcome := completed p m' tc' none, executed := ex' } ∧ 1 ≤ tc' ∧
        (d.id, formatFlowAction d "discard" none none) ∈ m' := by
  induction body with
  | nil =>
      intro current m cm tc ex hne hnd htc hcm
      obtain ⟨r0, hefr, hrid, haction, htakeof⟩ :=
        evaluateFlowRecord_ok p current (hnd current (by simp)) (hne current (by simp))
      rw [List.nil_append]
      rcases haction with ha | ha
      · cases hdr : p.discardRestAtTake with
        | true =>
            refine ⟨_, tc + 1, _,
              evalLoop_step_take_dr p current d [] m cm tc ex r0 hefr ha hdr,
              by omega, ?_⟩
            rw [show ([d] : List Flow) = [] ++ [d] from rfl, discardRemaining_append]
            exact setKey_self_mem _ _ _
        | false =>
            exact ⟨_, tc + 1, _,
              evalLoop_step_take_nodr_default p current d [] m cm tc ex r0 hefr ha hdr hd,
              by omega, setKey_self_mem _ _ _⟩
      · have hcm' : cm = true := by
          rcases hcm with h | ⟨f, hf, ht⟩
          · exact h
          · rcases List.mem_cons.mp hf with rfl | hm
            · exact absurd (htakeof ht) (by simp [ha])
            · simp at hm
        subst hcm'
        have htc' := htc rfl
        cases hdr : p.discardRestAtTake with
        | true =>
            refine ⟨_, tc, _,
              evalLoop_step_discard_cmtrue_dr p current d [] m tc ex r0 hefr ha hdr,
              htc', ?_⟩
            rw [show ([d] : List Flow) = [] ++ [d] from rfl, discardRemaining_append]
            exact setKey_self_mem _ _ _
        | false =>
            exact ⟨_, tc, _,
              evalLoop_step_discard_cmtrue_nodr_default p current d [] m tc ex r0 hefr ha
                hdr hd,
              htc', setKey_self_mem _ _ _⟩
  | cons b bs ih =>
      intro current m cm tc ex hne hnd htc hcm
      obtain ⟨r0, hefr, hrid, haction, htakeof⟩ :=
        evaluateFlowRecord_ok p current (hnd current (by simp)) (hne current (by simp))
      have hbnd : b.isDefault = false := hnd b (by simp)
      have hne' : ∀ f ∈ b :: bs, ∀ e, f.condition ≠ some (.failed e) :=
        fun f hf => hne f (List.mem_cons_of_mem current hf)
      have hnd' : ∀ f ∈ b :: bs, f.isDefault = false :=
        fun f hf => hnd f (List.mem_cons_of_mem current hf)
      rw [List.cons_append]
      rcases haction with ha | ha
      · cases hdr : p.discardRestAtTake with
        | true =>
            refine ⟨_, tc + 1, _,
              evalLoop_step_take_dr p current b (bs ++ [d]) m cm tc ex r0 hefr ha hdr,
              by omega, ?_⟩
            rw [← List.cons_append, discardRemaining_append]
            exact setKey_self_mem _ _ _
        | false =>
            rw [evalLoop_step_take_nodr_cont p current b (bs ++ [d]) m cm tc ex r0 hefr ha
              hdr hbnd]
            exact ih b _ true (tc + 1) _ hne' hnd' (fun _ => by omega) (Or.inl rfl)
      · cases cm with
        | true =>
            have htc' := htc rfl
            cases hdr : p.discardRestAtTake with
            | true =>
                refine ⟨_, tc, _,
                  evalLoop_step_discard_cmtrue_dr p current b (bs ++ [d]) m tc ex r0 hefr
                    ha hdr,
                  htc', ?_⟩
                rw [← List.cons_append, discardRemaining_append]
                exact setKey_self_mem _ _ _
            | false =>
                rw [evalLoop_step_discard_cmtrue_nodr_cont p current b (bs ++ [d]) m tc ex
                  r0 hefr ha hdr hbnd]
                exact ih b _ true tc _ hne' hnd' (fun _ => htc') (Or.inl rfl)
        | false =>
            have hex : ∃ f ∈ b :: bs, takeish f := by
              rcases hcm with h | ⟨f, hf, ht⟩
              · cases h
              · rcases List.mem_cons.mp hf with rfl | hm
                · exact absurd (htakeof ht) (by simp [ha])
                · exact ⟨f, hm, ht⟩
            rw [evalLoop_step_discard_cmfalse_cont p current b (bs ++ [d]) m tc ex r0 hefr
              ha]
            exact ih b _ false tc _ hne' hnd' (by simp) (Or.inr hex)

/-- C2: when at least one outbound flow exists and every flow evaluates to
`discard` (no default, no missing condition, each condition falsy), the
completion callback receives an error whose message ends in
`no conditional flow taken` with the source message attached as cause, and
no evaluation result is delivered. -/
theorem c2_no_flow_taken (activityId : String) (flows : List Flow) (msg : SourceMessage)
    (dr : Bool) (h1 : flows ≠ [])
    (h2 : ∀ f ∈ flows, f.isDefault = false ∧ f.condition = some (.value false)) :
    (evaluateOutbound activityId flows msg dr).outcome =
      .failure { message := noTakenMessage activityId, source := msg } ∧
    noTakenMessage activityId =
      ("<" ++ activityId ++ "> ") ++ "no conditional flow taken" ∧
    ∀ res, (evaluateOutbound activityId flows msg dr).outcome ≠ .ok res := by
  have hro : reorderDefaultLast flows = flows :=
    reorder_no_default flows fun f hf => (h2 f hf).1
  have hout : (evaluateOutbound activityId flows msg dr).outcome =
      .failure { message := noTakenMessage activityId, source := msg } := by
    unfold evaluateOutbound
    dsimp only
    rw [hro]
    cases hfl : flows with
    | nil => exact absurd hfl h1
    | cons f rest =>
        dsimp only
        obtain ⟨m', ex', heq⟩ := evalLoop_all_false
          { activityId := activityId, outboundFlows := f :: rest,
            fromMessage := msg, discardRestAtTake := dr } rest f [] 0 []
          (by rw [← hfl]; exact h2)
        rw [heq]
        unfold completed
        rw [if_pos ⟨rfl, by simp⟩]
  refine ⟨hout, ?_, ?_⟩
  · have hlit : ("> " : String) ++ "no conditional flow taken" =
        "> no conditional flow taken" := by decide
    show ("<" ++ activityId) ++ "> no conditional flow taken" =
      (("<" ++ activityId) ++ "> ") ++ "no conditional flow taken"
    rw [String.append_assoc ("<" ++ activityId) "> " "no conditional flow taken", hlit]
  · intro res hres
    rw [hout] at hres
    cases hres

/-- Every `ok` record of `evaluateFlowRecord` carries the flow's id and
default flag, an action that is `take` or `discard`, no message payload,
and an `evaluationId` that is absent or the evaluation's id. -/
lemma evaluateFlowRecord_shape (p : EvalParams) (f : Flow) (r0 : FlowRecord)
    (h : evaluateFlowRecord p f = .ok r0) :
    r0.id = f.id ∧ r0.isDefault = f.isDefault ∧
    (r0.action = "take" ∨ r0.action = "discard") ∧ r0.message = none ∧
    (r0.evaluationId = none ∨ r0.evaluationId = some p.fromMessage.content.executionId) := by
  unfold evaluateFlowRecord at h
  by_cases hd : f.isDefault = true
  · rw [if_pos hd] at h
    injection h with h1
    subst h1
    simp [formatFlowAction]
  · rw [if_neg hd] at h
    cases hc : f.condition with
    | none =>
        rw [hc] at h
        injection h with h1
        subst h1
        simp [formatFlowAction]
    | some co =>
        rw [hc] at h
        cases co with
        | failed e => cases h
        | value b =>
            injection h with h1
            subst h1
            cases b <;> simp [formatFlowAction]

/-- With globally fresh keys, `discardRemaining` appends one bare discard
record per remaining flow, in order. -/
lemma discardRemaining_fresh (l : List Flow) :
    ∀ m : List (String × FlowRecord),
      ((m.map Prod.fst) ++ l.map Flow.id).Nodup →
      discardRemaining m l =
        m ++ l.map fun f => (f.id, formatFlowAction f "discard" none none) := by
  induction l with
  | nil => intro m _; simp [discardRemaining]
  | cons f rest ih =>
      intro m hfresh
      have hfid : ∀ q ∈ m, q.1 ≠ f.id := by
        intro q hq he
        rw [List.map_cons, List.append_cons] at hfresh
        have h1 := (List.nodup_append.mp hfresh).1
        have hdis := (List.nodup_append.mp h1).2.2
        exact hdis (List.mem_map.mpr ⟨q, hq, rfl⟩) (by simp [he])
      have hstep : discardRemaining m (f :: rest) =
          discardRemaining (setKey m f.id (formatFlowAction f "discard" none none)) rest :=
        rfl
      rw [hstep, setKey_fresh m f.id _ hfid]
      rw [ih (m ++ [(f.id, formatFlowAction f "discard" none none)]) (by
        rw [List.map_cons, List.append_cons] at hfresh
        simpa using hfresh)]
      simp

lemma countTakes_append (a b : List FlowRecord) :
    countTakes (a ++ b) = countTakes a + countTakes b := by
  simp [countTakes, List.filter_append]

lemma countTakes_map_message (m : List (String × FlowRecord)) (x : Option String) :
    countTakes (m.map fun pr => { pr.2 with message := x }) = mapTakes m := by
  induction m with
  | nil => simp [countTakes, mapTakes]
  | cons kv rest ih =>
      simp only [List.map_cons, countTakes, mapTakes, List.filter_cons] at ih ⊢
      by_cases h : kv.2.action = "take" <;> simp [h, ih]

lemma mapTakes_append (a b : List (String × FlowRecord)) :
    mapTakes (a ++ b) = mapTakes a + mapTakes b := by
  simp [mapTakes, List.filter_append]

lemma mapTakes_all_discard (m : List (String × FlowRecord))
    (h : ∀ kv ∈ m, kv.2.action = "discard") : mapTakes m = 0 := by
  induction m with
  | nil => simp [mapTakes]
  | cons kv rest ih =>
      simp only [mapTakes, List.filter_cons]
      rw [if_neg (by simp [h kv (by simp)])]
      exact ih fun q hq => h q (by simp [hq])

lemma mapTakes_bares (l : List Flow) :
    mapTakes (l.map fun f => (f.id, formatFlowAction f "discard" none none)) = 0 := by
  apply mapTakes_all_discard
  intro kv hkv
  obtain ⟨f, _, rfl⟩ := List.mem_map.mp hkv
  simp [formatFlowAction]

/-- In a list whose only `take` element separates two all-discard parts,
everything after any `take` element lies in the tail part. -/
lemma take_split_suffix (B : List FlowRecord) (t tk : FlowRecord)
    (hB : ∀ r ∈ B, r.action ≠ "take")
    (ht : t.action = "take") (htk : tk.action = "take") :
    ∀ (A l1 l2 : List FlowRecord), (∀ r ∈ A, r.action ≠ "take") →
      A ++ t :: B = l1 ++ tk :: l2 → ∀ r ∈ l2, r ∈ B := by
  intro A
  induction A with
  | nil =>
      intro l1 l2 _ heq r hr
      cases l1 with
      | nil =>
          simp only [List.nil_append] at heq
          injection heq with h1 h2
          exact h2 ▸ hr
      | cons x l1' =>
          simp only [List.nil_append, List.cons_append] at heq
          injection heq with h1 h2
          exact absurd htk (hB tk (h2 ▸ List.mem_append.mpr (Or.inr (by simp))))
  | cons a A' ih =>
      intro l1 l2 hA heq r hr
      cases l1 with
      | nil =>
          simp only [List.cons_append, List.nil_append] at heq
          injection heq with h1 h2
          exact absurd htk (h1 ▸ hA a (by simp))
      | cons x l1' =>
          simp only [List.cons_append] at heq
          injection heq with h1 h2
          exact ih l1' l2 (fun q hq => hA q (by simp [hq])) h2 r hr

/-- The record ids of the delivered result are the keys of the result map. -/
lemma resultIds_eq_keys (m : List (String × FlowRecord)) (x : Option String)
    (hwf : ∀ kv ∈ m, kv.2.id = kv.1) :
    (m.map fun pr => { pr.2 with message := x }).map FlowRecord.id = m.map Prod.fst := by
  induction m with
  | nil => simp
  | cons kv rest ih =>
      simp only [List.map_cons]
      rw [ih fun q hq => hwf q (by simp [hq])]
      have := hwf kv (by simp)
      simp [this]

lemma completed_error_ne_ok (p : EvalParams) (m : List (String × FlowRecord)) (tc : Nat)
    (e : String) (res : List FlowRecord) : completed p m tc (some e) ≠ .ok res := by
  unfold completed
  intro h
  cases h

lemma completed_ok_inv (p : EvalParams) (m : List (String × FlowRecord)) (tc : Nat)
    (res : List FlowRecord) (h : completed p m tc none = .ok res) :
    res = m.map (fun pr => { pr.2 with message := p.fromMessage.content.message }) ∧
    (p.outboundFlows.length ≠ 0 → tc ≠ 0) := by
  unfold completed at h
  split at h
  · cases h
  · split at h
    · cases h
    · rename_i hcond
      injection h with h1
      exact ⟨h1.symm, fun hl h0 => hcond ⟨h0, hl⟩⟩

lemma fresh_not_key (m : List (String × FlowRecord)) (cid : String) (lids : List String)
    (h : ((m.map Prod.fst) ++ cid :: lids).Nodup) : ∀ q ∈ m, q.1 ≠ cid := by
  intro q hq he
  rw [List.append_cons] at h
  have h1 := (List.nodup_append.mp h).1
  have hdis := (List.nodup_append.mp h1).2.2
  exact hdis (List.mem_map.mpr ⟨q, hq, rfl⟩) (by simp [he])

lemma fresh_shift (m : List (String × FlowRecord)) (r0 : FlowRecord) (current : Flow)
    (l : List Flow)
    (h : ((m.map Prod.fst) ++ (current :: l).map Flow.id).Nodup) :
    (((m ++ [(current.id, r0)]).map Prod.fst) ++ l.map Flow.id).Nodup := by
  simp only [List.map_append, List.map_cons, List.map_nil] at h ⊢
  rw [← List.append_cons]
  simpa using h

/-- If the evaluation delivers a result and outbound flows exist, at least
one record has action `take` (the entry `takenCount` counts exactly the
`take` entries in the map). -/
lemma evalLoop_count (p : EvalParams) (pending : List Flow) :
    ∀ (current : Flow) (m : List (String × FlowRecord)) (cm : Bool) (tc : Nat)
      (ex : List String),
      ((m.map Prod.fst) ++ (current :: pending).map Flow.id).Nodup →
      mapTakes m = tc →
      ∀ res, (evalLoop p m cm tc ex current pending).outcome = .ok res →
        (p.outboundFlows.length ≠ 0 → 1 ≤ countTakes res) := by
  induction pending with
  | nil =>
      intro current m cm tc ex hfresh hmt res h hlen
      have hkey := fresh_not_key m current.id [] (by simpa using hfresh)
      cases hefr : evaluateFlowRecord p current with
      | error e =>
          rw [evalLoop_step_error p current [] m cm tc ex e hefr] at h
          dsimp only at h
          exact absurd h (completed_error_ne_ok p m tc e res)
      | ok r0 =>
          obtain ⟨hid, hdef, haction, hmsg, hev⟩ := evaluateFlowRecord_shape p current r0 hefr
          rcases haction with ha | ha
          · rw [evalLoop_step_final_take p current m cm tc ex r0 hefr ha] at h
            dsimp only at h
            obtain ⟨hres, _⟩ := completed_ok_inv p _ _ res h
            rw [hres, countTakes_map_message, setKey_fresh m current.id r0 hkey,
              mapTakes_append]
            have h1 : mapTakes [(current.id, r0)] = 1 := by simp [mapTakes, ha]
            omega
          · rw [evalLoop_step_final_discard p current m cm tc ex r0 hefr ha] at h
            dsimp only at h
            obtain ⟨hres, htc0⟩ := completed_ok_inv p _ _ res h
            rw [hres, countTakes_map_message, setKey_fresh m current.id r0 hkey,
              mapTakes_append]
            have htcne := htc0 hlen
            have h0 : mapTakes [(current.id, r0)] = 0 := by simp [mapTakes, ha]
            omega
  | cons next rest ih =>
      intro current m cm tc ex hfresh hmt res h hlen
      have hkey := fresh_not_key m current.id ((next :: rest).map Flow.id)
        (by simpa using hfresh)
      cases hefr : evaluateFlowRecord p current with
      | error e =>
          rw [evalLoop_step_error p current (next :: rest) m cm tc ex e hefr] at h
          dsimp only at h
          exact absurd h (completed_error_ne_ok p m tc e res)
      | ok r0 =>
          obtain ⟨hid, hdef, haction, hmsg, hev⟩ := evaluateFlowRecord_shape p current r0 hefr
          have hset : setKey m current.id r0 = m ++ [(current.id, r0)] :=
            setKey_fresh m current.id r0 hkey
          have hfresh' := fresh_shift m r0 current (next :: rest) hfresh
          rcases haction with ha | ha
          · cases hdr : p.discardRestAtTake with
            | true =>
                rw [evalLoop_step_take_dr p current next rest m cm tc ex r0 hefr ha hdr]
                  at h
                dsimp only at h
                obtain ⟨hres, _⟩ := completed_ok_inv p _ _ res h
                rw [hset] at hres
                rw [discardRemaining_fresh (next :: rest) (m ++ [(current.id, r0)])
                  hfresh'] at hres
                rw [hres, countTakes_map_message, mapTakes_append, mapTakes_append]
                have hb := mapTakes_bares (next :: rest)
                have h1 : mapTakes [(current.id, r0)] = 1 := by simp [mapTakes, ha]
                omega
            | false =>
                cases hnd : next.isDefault with
                | true =>
                    rw [evalLoop_step_take_nodr_default p current next rest m cm tc ex r0
                      hefr ha hdr hnd] at h
                    dsimp only at h
                    obtain ⟨hres, _⟩ := completed_ok_inv p _ _ res h
                    have hkey2 : ∀ q ∈ m ++ [(current.id, r0)], q.1 ≠ next.id :=
                      fresh_not_key (m ++ [(current.id, r0)]) next.id (rest.map Flow.id)
                        (by simpa using hfresh')
                    rw [hset] at hres
                    rw [setKey_fresh _ next.id _ hkey2] at hres
                    rw [hres, countTakes_map_message, mapTakes_append, mapTakes_append]
                    have h1 : mapTakes [(current.id, r0)] = 1 := by simp [mapTakes, ha]
                    omega
                | false =>
                    rw [evalLoop_step_take_nodr_cont p current next rest m cm tc ex r0
                      hefr ha hdr hnd] at h
                    rw [hset] at h
                    exact ih next (m ++ [(current.id, r0)]) true (tc + 1) _ hfresh'
                      (by rw [mapTakes_append, hmt]; simp [mapTakes, ha]) res h hlen
          · cases cm with
            | false =>
                rw [evalLoop_step_discard_cmfalse_cont p current next rest m tc ex r0
                  hefr ha] at h
                rw [hset] at h
                exact ih next (m ++ [(current.id, r0)]) false tc _ hfresh'
                  (by rw [mapTakes_append, hmt]; simp [mapTakes, ha]) res h hlen
            | true =>
                cases hdr : p.discardRestAtTake with
                | true =>
                    rw [evalLoop_step_discard_cmtrue_dr p current next rest m tc ex r0
                      hefr ha hdr] at h
                    dsimp only at h
                    obtain ⟨hres, htc0⟩ := completed_ok_inv p _ _ res h
                    rw [hset] at hres
                    rw [discardRemaining_fresh (next :: rest) (m ++ [(current.id, r0)])
                      hfresh'] at hres
                    rw [hres, countTakes_map_message, mapTakes_append, mapTakes_append]
                    have hb := mapTakes_bares (next :: rest)
                    have h1 : mapTakes [(current.id, r0)] = 0 := by simp [mapTakes, ha]
                    have htcne := htc0 hlen
                    omega
                | false =>
                    cases hnd : next.isDefault with
                    | true =>
                        rw [evalLoop_step_discard_cmtrue_nodr_default p current next rest
                          m tc ex r0 hefr ha hdr hnd] at h
                        dsimp only at h
                        obtain ⟨hres, htc0⟩ := completed_ok_inv p _ _ res h
                        have hkey2 : ∀ q ∈ m ++ [(current.id, r0)], q.1 ≠ next.id :=
                          fresh_not_key (m ++ [(current.id, r0)]) next.id
                            (rest.map Flow.id) (by simpa using hfresh')
                        rw [hset] at hres
                        rw [setKey_fresh _ next.id _ hkey2] at hres
                        rw [hres, countTakes_map_message, mapTakes_append, mapTakes_append]
                        have h1 : mapTakes [(current.id, r0)] = 0 := by
                          simp [mapTakes, ha]
                        have h2 : mapTakes
                            [(next.id, formatFlowAction next "discard" none none)] = 0 := by
                          simp [mapTakes, formatFlowAction]
                        have htcne := htc0 hlen
                        omega
                    | false =>
                        rw [evalLoop_step_discard_cmtrue_nodr_cont p current next rest m
                          tc ex r0 hefr ha hdr hnd] at h
                        rw [hset] at h
                        exact ih next (m ++ [(current.id, r0)]) true tc _ hfresh'
                          (by rw [mapTakes_append, hmt]; simp [mapTakes, ha]) res h hlen

lemma mem_map_message_action (m : List (String × FlowRecord)) (x : Option String)
    (hall : ∀ kv ∈ m, kv.2.action = "discard") :
    ∀ r ∈ m.map fun pr => { pr.2 with message := x }, r.action = "discard" := by
  intro r hr
  obtain ⟨kv, hkv, rfl⟩ := List.mem_map.mp hr
  simpa using hall kv hkv

lemma executedAfter_mem (ex : List String) (f : Flow) (x : String)
    (h : x ∈ executedAfter ex f) : x ∈ ex ∨ x = f.id := by
  unfold executedAfter at h
  split at h
  · rcases List.mem_append.mp h with h1 | h1
    · exact Or.inl h1
    · exact Or.inr (List.mem_singleton.mp h1)
  · exact Or.inl h

lemma mem_mapped_bares (l : List Flow) (x : Option String) (r : FlowRecord)
    (hr : r ∈ (l.map fun f => (f.id, formatFlowAction f "discard" none none)).map
      fun pr => { pr.2 with message := x }) :
    r.action = "discard" ∧ r.result = none ∧ r.evaluationId = none ∧
      ∃ f ∈ l, r.id = f.id := by
  obtain ⟨kv, hkv, rfl⟩ := List.mem_map.mp hr
  obtain ⟨f, hf, rfl⟩ := List.mem_map.mp hkv
  exact ⟨by simp [formatFlowAction], by simp [formatFlowAction],
    by simp [formatFlowAction], f, hf, by simp [formatFlowAction]⟩

lemma map_message_no_take (m : List (String × FlowRecord)) (x : Option String)
    (hall : ∀ kv ∈ m, kv.2.action = "discard") :
    ∀ r ∈ m.map fun pr => { pr.2 with message := x }, r.action ≠ "take" := by
  intro r hr
  rw [mem_map_message_action m x hall r hr]
  simp

lemma fresh_pending_ids (keysl : List String) (cid : String) (pendIds : List String)
    (h : (keysl ++ cid :: pendIds).Nodup) (x : String) (hx : x ∈ pendIds) :
    x ∉ keysl ∧ x ≠ cid := by
  obtain ⟨h1, h2, h3⟩ := List.nodup_append.mp h
  refine ⟨fun hk => h3 hk (by simp [hx]), fun he => ?_⟩
  subst he
  exact (List.nodup_cons.mp h2).1 hx

/-- With `discardRestAtTake` on and no take yet, a delivered result has at
most one `take`, and every record after a `take` record is a bare discard
whose flow id never reaches the executed-conditions trace. -/
lemma evalLoop_dr (p : EvalParams) (hdr : p.discardRestAtTake = true) (pending : List Flow) :
    ∀ (current : Flow) (m : List (String × FlowRecord)) (tc : Nat) (ex : List String),
      ((m.map Prod.fst) ++ (current :: pending).map Flow.id).Nodup →
      (∀ kv ∈ m, kv.2.action = "discard") →
      (∀ x ∈ ex, x ∈ m.map Prod.fst) →
      ∀ res, (evalLoop p m false tc ex current pending).outcome = .ok res →
        countTakes res ≤ 1 ∧
        ∀ (l1 l2 : List FlowRecord) (tk : FlowRecord), res = l1 ++ tk :: l2 →
          tk.action = "take" →
          ∀ r ∈ l2, r.action = "discard" ∧ r.result = none ∧ r.evaluationId = none ∧
            r.id ∉ (evalLoop p m false tc ex current pending).executed := by
  induction pending with
  | nil =>
      intro current m tc ex hfresh hall hex res h
      have hkey := fresh_not_key m current.id [] (by simpa using hfresh)
      cases hefr : evaluateFlowRecord p current with
      | error e =>
          rw [evalLoop_step_error p current [] m false tc ex e hefr] at h
          dsimp only at h
          exact absurd h (completed_error_ne_ok p m tc e res)
      | ok r0 =>
          obtain ⟨hid, hdef, haction, hmsg, hev⟩ := evaluateFlowRecord_shape p current r0 hefr
          rcases haction with ha | ha
          · rw [evalLoop_step_final_take p current m false tc ex r0 hefr ha] at h ⊢
            dsimp only at h ⊢
            obtain ⟨hres, _⟩ := completed_ok_inv p _ _ res h
            rw [setKey_fresh m current.id r0 hkey] at hres
            constructor
            · rw [hres, countTakes_map_message, mapTakes_append,
                mapTakes_all_discard m hall]
              simp [mapTakes, ha]
            · intro l1 l2 tk heq htk r hr
              have hsplit : (m.map fun pr =>
                  { pr.2 with message := p.fromMessage.content.message }) ++
                  ({ r0 with message := p.fromMessage.content.message } :: []) =
                  l1 ++ tk :: l2 := by
                rw [← heq, hres]
                simp
              have := take_split_suffix [] _ tk (by simp) (by simpa using ha) htk
                _ l1 l2 (map_message_no_take m _ hall) hsplit r hr
              cases this
          · rw [evalLoop_step_final_discard p current m false tc ex r0 hefr ha] at h ⊢
            dsimp only at h ⊢
            obtain ⟨hres, _⟩ := completed_ok_inv p _ _ res h
            rw [setKey_fresh m current.id r0 hkey] at hres
            have halld : ∀ r ∈ res, r.action = "discard" := by
              rw [hres]
              exact mem_map_message_action _ _ (by
                intro kv hkv
                rcases List.mem_append.mp hkv with h1 | h1
                · exact hall kv h1
                · rw [List.mem_singleton.mp h1]; exact ha)
            constructor
            · rw [hres, countTakes_map_message, mapTakes_append,
                mapTakes_all_discard m hall]
              simp [mapTakes, ha]
            · intro l1 l2 tk heq htk r hr
              have hdisc : tk.action = "discard" := halld tk (by simp [heq])
              rw [hdisc] at htk
              simp at htk
  | cons next rest ih =>
      intro current m tc ex hfresh hall hex res h
      have hkey := fresh_not_key m current.id ((next :: rest).map Flow.id)
        (by simpa using hfresh)
      cases hefr : evaluateFlowRecord p current with
      | error e =>
          rw [evalLoop_step_error p current (next :: rest) m false tc ex e hefr] at h
          dsimp only at h
          exact absurd h (completed_error_ne_ok p m tc e res)
      | ok r0 =>
          obtain ⟨hid, hdef, haction, hmsg, hev⟩ := evaluateFlowRecord_shape p current r0 hefr
          have hset : setKey m current.id r0 = m ++ [(current.id, r0)] :=
            setKey_fresh m current.id r0 hkey
          have hfresh' := fresh_shift m r0 current (next :: rest) hfresh
          rcases haction with ha | ha
          · rw [evalLoop_step_take_dr p current next rest m false tc ex r0 hefr ha hdr]
              at h ⊢
            dsimp only at h ⊢
            obtain ⟨hres, _⟩ := completed_ok_inv p _ _ res h
            rw [hset, discardRemaining_fresh (next :: rest) (m ++ [(current.id, r0)])
              hfresh'] at hres
            constructor
            · rw [hres, countTakes_map_message, List.append_assoc, mapTakes_append,
                mapTakes_append, mapTakes_all_discard m hall, mapTakes_bares]
              simp [mapTakes, ha]
            · intro l1 l2 tk heq htk r hr
              have hsplit : (m.map fun pr =>
                  { pr.2 with message := p.fromMessage.content.message }) ++
                  ({ r0 with message := p.fromMessage.content.message } ::
                    (((next :: rest).map fun f =>
                      (f.id, formatFlowAction f "discard" none none)).map
                      fun pr => { pr.2 with message := p.fromMessage.content.message })) =
                  l1 ++ tk :: l2 := by
                rw [← heq, hres]
                simp
              have hrB := take_split_suffix _ _ tk
                (by
                  intro q hq
                  have := mem_mapped_bares (next :: rest) _ q hq
                  simp [this.1])
                (by simpa using ha) htk
                _ l1 l2 (map_message_no_take m _ hall) hsplit r hr
              obtain ⟨hact, hresz, hevz, f, hf, hrid⟩ :=
                mem_mapped_bares (next :: rest) _ r hrB
              refine ⟨hact, hresz, hevz, ?_⟩
              intro hrex
              rcases executedAfter_mem ex current r.id hrex with h1 | h1
              · have h2 := hex r.id h1
                have := (fresh_pending_ids (m.map Prod.fst) current.id
                  ((next :: rest).map Flow.id) (by simpa using hfresh) r.id
                  (by exact hrid ▸ List.mem_map.mpr ⟨f, hf, rfl⟩)).1
                exact this h2
              · have := (fresh_pending_ids (m.map Prod.fst) current.id
                  ((next :: rest).map Flow.id) (by simpa using hfresh) r.id
                  (by exact hrid ▸ List.mem_map.mpr ⟨f, hf, rfl⟩)).2
                exact this h1
          · rw [evalLoop_step_discard_cmfalse_cont p current next rest m tc ex r0 hefr ha]
              at h ⊢
            rw [hset] at h ⊢
            exact ih next (m ++ [(current.id, r0)]) tc _ hfresh'
              (by
                intro kv hkv
                rcases List.mem_append.mp hkv with h1 | h1
                · exact hall kv h1
                · rw [List.mem_singleton.mp h1]; exact ha)
              (by
                intro x hx
                rcases executedAfter_mem ex current x hx with h1 | h1
                · simp [hex x h1]
                · simp [h1])
              res h

/-- The per-entry invariant of the evaluator's result map: the record
carries its key as id, a plausible `evaluationId`, and mirrors the default
flag of a flow of the outbound set. -/
def entryInvariant (p : EvalParams) (P0 : List Flow) (kv : String × FlowRecord) : Prop :=
  kv.2.id = kv.1 ∧
  (kv.2.evaluationId = none ∨ kv.2.evaluationId = some p.fromMessage.content.executionId) ∧
  ∃ f ∈ P0, kv.1 = f.id ∧ kv.2.isDefault = f.isDefault

lemma mapped_records_facts (p : EvalParams) (P0 : List Flow)
    (M : List (String × FlowRecord)) (hwf : ∀ kv ∈ M, entryInvariant p P0 kv) :
    ∀ r ∈ M.map fun pr => { pr.2 with message := p.fromMessage.content.message },
      r.message = p.fromMessage.content.message ∧
      (r.evaluationId = none ∨ r.evaluationId = some p.fromMessage.content.executionId) ∧
      ∃ f ∈ P0, r.id = f.id ∧ r.isDefault = f.isDefault := by
  intro r hr
  obtain ⟨kv, hkv, rfl⟩ := List.mem_map.mp hr
  obtain ⟨h1, h2, f, hf, h3, h4⟩ := hwf kv hkv
  exact ⟨by simp, by simpa using h2, f, hf, by simp [h1, h3], by simpa using h4⟩

lemma bares_keys (l : List Flow) :
    (l.map fun f => (f.id, formatFlowAction f "discard" none none)).map Prod.fst =
      l.map Flow.id := by
  simp [List.map_map]

lemma bares_invariant (p : EvalParams) (P0 : List Flow) (l : List Flow)
    (hsub : ∀ f ∈ l, f ∈ P0) :
    ∀ kv ∈ l.map fun f => (f.id, formatFlowAction f "discard" none none),
      entryInvariant p P0 kv := by
  intro kv hkv
  obtain ⟨f, hf, rfl⟩ := List.mem_map.mp hkv
  exact ⟨by simp [formatFlowAction], Or.inl (by simp [formatFlowAction]),
    f, hsub f hf, rfl, by simp [formatFlowAction]⟩

/-- When the loop delivers a result, its records are listed in evaluation
order (the result-map key order extends by the walked flows, in order), and
each record carries the source message payload, a plausible
`evaluationId`, and its flow's default flag. -/
lemma evalLoop_order (p : EvalParams) (P0 : List Flow) (pending : List Flow) :
    ∀ (current : Flow) (m : List (String × FlowRecord)) (cm : Bool) (tc : Nat)
      (ex : List String),
      ((m.map Prod.fst) ++ (current :: pending).map Flow.id).Nodup →
      (∀ kv ∈ m, entryInvariant p P0 kv) →
      (∀ f ∈ current :: pending, f ∈ P0) →
      (∀ l1 f l2, current :: pending = l1 ++ f :: l2 → f.isDefault = true → l2 = []) →
      ∀ res, (evalLoop p m cm tc ex current pending).outcome = .ok res →
        res.map FlowRecord.id = (m.map Prod.fst) ++ (current :: pending).map Flow.id ∧
        ∀ r ∈ res, r.message = p.fromMessage.content.message ∧
          (r.evaluationId = none ∨
            r.evaluationId = some p.fromMessage.content.executionId) ∧
          ∃ f ∈ P0, r.id = f.id ∧ r.isDefault = f.isDefault := by
  induction pending with
  | nil =>
      intro current m cm tc ex hfresh hwf hsub hdl res h
      have hkey := fresh_not_key m current.id [] (by simpa using hfresh)
      cases hefr : evaluateFlowRecord p current with
      | error e =>
          rw [evalLoop_step_error p current [] m cm tc ex e hefr] at h
          dsimp only at h
          exact absurd h (completed_error_ne_ok p m tc e res)
      | ok r0 =>
          obtain ⟨hid, hdef, haction, hmsg, hev⟩ := evaluateFlowRecord_shape p current r0 hefr
          have hwf' : ∀ kv ∈ m ++ [(current.id, r0)], entryInvariant p P0 kv := by
            intro kv hkv
            rcases List.mem_append.mp hkv with h1 | h1
            · exact hwf kv h1
            · rw [List.mem_singleton.mp h1]
              exact ⟨hid, hev, current, hsub current (by simp), rfl, hdef⟩
          rcases haction with ha | ha <;>
            [rw [evalLoop_step_final_take p current m cm tc ex r0 hefr ha] at h;
             rw [evalLoop_step_final_discard p current m cm tc ex r0 hefr ha] at h] <;>
          · dsimp only at h
            obtain ⟨hres, _⟩ := completed_ok_inv p _ _ res h
            rw [setKey_fresh m current.id r0 hkey] at hres
            constructor
            · rw [hres, resultIds_eq_keys _ _ fun kv hkv => (hwf' kv hkv).1]
              simp [hid]
            · rw [hres]
              exact mapped_records_facts p P0 _ hwf'
  | cons next rest ih =>
      intro current m cm tc ex hfresh hwf hsub hdl res h
      have hkey := fresh_not_key m current.id ((next :: rest).map Flow.id)
        (by simpa using hfresh)
      cases hefr : evaluateFlowRecord p current with
      | error e =>
          rw [evalLoop_step_error p current (next :: rest) m cm tc ex e hefr] at h
          dsimp only at h
          exact absurd h (completed_error_ne_ok p m tc e res)
      | ok r0 =>
          obtain ⟨hid, hdef, haction, hmsg, hev⟩ := evaluateFlowRecord_shape p current r0 hefr
          have hset : setKey m current.id r0 = m ++ [(current.id, r0)] :=
            setKey_fresh m current.id r0 hkey
          have hfresh' := fresh_shift m r0 current (next :: rest) hfresh
          have hwf' : ∀ kv ∈ m ++ [(current.id, r0)], entryInvariant p P0 kv := by
            intro kv hkv
            rcases List.mem_append.mp hkv with h1 | h1
            · exact hwf kv h1
            · rw [List.mem_singleton.mp h1]
              exact ⟨hid, hev, current, hsub current (by simp), rfl, hdef⟩
          have hsub' : ∀ f ∈ next :: rest, f ∈ P0 :=
            fun f hf => hsub f (List.mem_cons_of_mem current hf)
          have hdl' : ∀ l1 f l2, next :: rest = l1 ++ f :: l2 → f.isDefault = true →
              l2 = [] :=
            fun l1 f l2 heq => hdl (current :: l1) f l2 (by rw [heq]; rfl)
          have hdrfold : ∀ kv ∈ (m ++ [(current.id, r0)]) ++
              ((next :: rest).map fun f =>
                (f.id, formatFlowAction f "discard" none none)),
              entryInvariant p P0 kv := by
            intro kv hkv
            rcases List.mem_append.mp hkv with h1 | h1
            · exact hwf' kv h1
            · exact bares_invariant p P0 (next :: rest) hsub' kv h1
          have hidsfold : (((m ++ [(current.id, r0)]) ++
              ((next :: rest).map fun f =>
                (f.id, formatFlowAction f "discard" none none))).map Prod.fst) =
              (m.map Prod.fst) ++ (current :: next :: rest).map Flow.id := by
            rw [List.map_append, List.map_append, bares_keys]
            simp [hid]
          rcases haction with ha | ha
          · cases hdr : p.discardRestAtTake with
            | true =>
                rw [evalLoop_step_take_dr p current next rest m cm tc ex r0 hefr ha hdr]
                  at h
                dsimp only at h
                obtain ⟨hres, _⟩ := completed_ok_inv p _ _ res h
                rw [hset, discardRemaining_fresh (next :: rest) (m ++ [(current.id, r0)])
                  hfresh'] at hres
                constructor
                · rw [hres, resultIds_eq_keys _ _ fun kv hkv => (hdrfold kv hkv).1,
                    hidsfold]
                · rw [hres]
                  exact mapped_records_facts p P0 _ hdrfold
            | false =>
                cases hnd : next.isDefault with
                | true =>
                    have hrest : rest = [] := hdl [current] next rest rfl hnd
                    subst hrest
                    rw [evalLoop_step_take_nodr_default p current next [] m cm tc ex r0
                      hefr ha hdr hnd] at h
                    dsimp only at h
                    obtain ⟨hres, _⟩ := completed_ok_inv p _ _ res h
                    have hkey2 : ∀ q ∈ m ++ [(current.id, r0)], q.1 ≠ next.id :=
                      fresh_not_key (m ++ [(current.id, r0)]) next.id []
                        (by simpa using hfresh')
                    rw [hset, setKey_fresh _ next.id _ hkey2] at hres
                    have hwf2 : ∀ kv ∈ (m ++ [(current.id, r0)]) ++
                        [(next.id, formatFlowAction next "discard" none none)],
                        entryInvariant p P0 kv := by
                      intro kv hkv
                      rcases List.mem_append.mp hkv with h1 | h1
                      · exact hwf' kv h1
                      · rw [List.mem_singleton.mp h1]
                        exact ⟨by simp [formatFlowAction],
                          Or.inl (by simp [formatFlowAction]),
                          next, hsub next (by simp), rfl, by simp [formatFlowAction]⟩
                    constructor
                    · rw [hres, resultIds_eq_keys _ _ fun kv hkv => (hwf2 kv hkv).1]
                      simp [hid]
                    · rw [hres]
                      exact mapped_records_facts p P0 _ hwf2
                | false =>
                    rw [evalLoop_step_take_nodr_cont p current next rest m cm tc ex r0
                      hefr ha hdr hnd, hset] at h
                    obtain ⟨hids, hfacts⟩ := ih next (m ++ [(current.id, r0)]) true
                      (tc + 1) _ hfresh' hwf' hsub' hdl' res h
                    refine ⟨?_, hfacts⟩
                    rw [hids]
                    simp [hid]
          · cases cm with
            | false =>
                rw [evalLoop_step_discard_cmfalse_cont p current next rest m tc ex r0
                  hefr ha, hset] at h
                obtain ⟨hids, hfacts⟩ := ih next (m ++ [(current.id, r0)]) false tc _
                  hfresh' hwf' hsub' hdl' res h
                refine ⟨?_, hfacts⟩
                rw [hids]
                simp [hid]
            | true =>
                cases hdr : p.discardRestAtTake with
                | true =>
                    rw [evalLoop_step_discard_cmtrue_dr p current next rest m tc ex r0
                      hefr ha hdr] at h
                    dsimp only at h
                    obtain ⟨hres, _⟩ := completed_ok_inv p _ _ res h
                    rw [hset, discardRemaining_fresh (next :: rest)
                      (m ++ [(current.id, r0)]) hfresh'] at hres
                    constructor
                    · rw [hres, resultIds_eq_keys _ _ fun kv hkv => (hdrfold kv hkv).1,
                        hidsfold]
                    · rw [hres]
                      exact mapped_records_facts p P0 _ hdrfold
                | false =>
                    cases hnd : next.isDefault with
                    | true =>
                        have hrest : rest = [] := hdl [current] next rest rfl hnd
                        subst hrest
                        rw [evalLoop_step_discard_cmtrue_nodr_default p current next []
                          m tc ex r0 hefr ha hdr hnd] at h
                        dsimp only at h
                        obtain ⟨hres, _⟩ := completed_ok_inv p _ _ res h
                        have hkey2 : ∀ q ∈ m ++ [(current.id, r0)], q.1 ≠ next.id :=
                          fresh_not_key (m ++ [(current.id, r0)]) next.id []
                            (by simpa using hfresh')
                        rw [hset, setKey_fresh _ next.id _ hkey2] at hres
                        have hwf2 : ∀ kv ∈ (m ++ [(current.id, r0)]) ++
                            [(next.id, formatFlowAction next "discard" none none)],
                            entryInvariant p P0 kv := by
                          intro kv hkv
                          rcases List.mem_append.mp hkv with h1 | h1
                          · exact hwf' kv h1
                          · rw [List.mem_singleton.mp h1]
                            exact ⟨by simp [formatFlowAction],
                              Or.inl (by simp [formatFlowAction]),
                              next, hsub next (by simp), rfl,
                              by simp [formatFlowAction]⟩
                        constructor
                        · rw [hres, resultIds_eq_keys _ _ fun kv hkv => (hwf2 kv hkv).1]
                          simp [hid]
                        · rw [hres]
                          exact mapped_records_facts p P0 _ hwf2
                    | false =>
                        rw [evalLoop_step_discard_cmtrue_nodr_cont p current next rest m
                          tc ex r0 hefr ha hdr hnd, hset] at h
                        obtain ⟨hids, hfacts⟩ := ih next (m ++ [(current.id, r0)]) true
                          tc _ hfresh' hwf' hsub' hdl' res h
                        refine ⟨?_, hfacts⟩
                        rw [hids]
                        simp [hid]

lemma evaluateFlowRecord_default (p : EvalParams) (d : Flow) (hd : d.isDefault = true) :
    evaluateFlowRecord p d = .ok (formatFlowAction d "take" none none) := by
  unfold evaluateFlowRecord
  simp [hd]

/-- C5: with exactly one default flow `d` among the outbound flows (and
distinct flow ids), (1) the evaluator's working copy places `d` last,
(2) `d`'s condition is never executed, (3) when every other flow evaluates
falsy, `d` is reached with no earlier take and its record action is `take`,
and (4) when some non-default flow takes (and no condition errs), the
evaluation finishes successfully with `d`'s record action `discard`. -/
theorem c5_default_flow (activityId : String) (flows : List Flow) (msg : SourceMessage)
    (dr : Bool) (d : Flow) (hd : d.isDefault = true) (hmem : d ∈ flows)
    (huniq : ∀ f ∈ flows, f.isDefault = true → f = d)
    (hnodup : (flows.map Flow.id).Nodup) :
    reorderDefaultLast flows = (flows.filter fun f => !f.isDefault) ++ [d] ∧
    d.id ∉ (evaluateOutbound activityId flows msg dr).executed ∧
    ((∀ f ∈ flows, f.isDefault = false → f.condition = some (.value false)) →
      ∃ res, (evaluateOutbound activityId flows msg dr).outcome = .ok res ∧
        ∃ r ∈ res, r.id = d.id ∧ r.action = "take") ∧
    ((∀ f ∈ flows, ∀ e, f.condition ≠ some (.failed e)) →
      (∃ f ∈ flows, takeish f) →
      ∃ res, (evaluateOutbound activityId flows msg dr).outcome = .ok res ∧
        ∃ r ∈ res, r.id = d.id ∧ r.action = "discard") := by
  have hro : reorderDefaultLast flows = (flows.filter fun f => !f.isDefault) ++ [d] :=
    reorder_unique_default flows d hd hmem huniq hnodup
  have hfiltmem : ∀ f, f ∈ (flows.filter fun f => !f.isDefault) →
      f ∈ flows ∧ f.isDefault = false := by
    intro f hf
    obtain ⟨h1, h2⟩ := List.mem_filter.mp hf
    exact ⟨h1, by simpa using h2⟩
  refine ⟨hro, ?_, ?_, ?_⟩
  · -- d's condition is never executed
    intro hx
    unfold evaluateOutbound at hx
    dsimp only at hx
    rw [hro] at hx
    cases hnd0 : flows.filter fun f => !f.isDefault with
    | nil =>
        rw [hnd0, List.nil_append] at hx
        rcases evalLoop_executed_sub _ [] d [] false 0 [] d.id hx with hl | ⟨f, hf, h1, _⟩
        · simp at hl
        · rcases List.mem_cons.mp hf with rfl | hm
          · rw [hd] at h1; cases h1
          · simp at hm
    | cons f0 nds =>
        rw [hnd0, List.cons_append] at hx
        rcases evalLoop_executed_sub _ (nds ++ [d]) f0 [] false 0 [] d.id hx with
          hl | ⟨f, hf, h1, _, h3⟩
        · simp at hl
        · have hfflows : f ∈ flows := by
            rcases List.mem_cons.mp hf with rfl | hm
            · exact (hfiltmem f (by simp [hnd0])).1
            · rcases List.mem_append.mp hm with hm1 | hm2
              · exact (hfiltmem f (by simp [hnd0, hm1])).1
              · rw [List.mem_singleton.mp hm2]; exact hmem
          have : f = d := List.inj_on_of_nodup_map hnodup hfflows hmem h3
          rw [this, hd] at h1
          cases h1
  · -- all other flows falsy: d gets action take
    intro h3
    have hallfalse : ∀ f ∈ (flows.filter fun f => !f.isDefault),
        f.isDefault = false ∧ f.condition = some (.value false) := by
      intro f hf
      obtain ⟨h1, h2⟩ := hfiltmem f hf
      exact ⟨h2, h3 f h1 h2⟩
    unfold evaluateOutbound
    dsimp only
    rw [hro]
    cases hnd0 : flows.filter fun f => !f.isDefault with
    | nil =>
        rw [List.nil_append]
        dsimp only
        rw [evalLoop_step_final_take _ d [] false 0 []
          (formatFlowAction d "take" none none) (evaluateFlowRecord_default _ d hd)
          (by simp [formatFlowAction])]
        rw [completed_ok_of_pos _ _ _ (by omega)]
        refine ⟨_, rfl, ?_⟩
        refine ⟨_, List.mem_map.mpr ⟨(d.id, formatFlowAction d "take" none none),
          setKey_self_mem _ _ _, rfl⟩, ?_, ?_⟩ <;> simp [formatFlowAction]
    | cons f0 nds =>
        rw [List.cons_append]
        dsimp only
        obtain ⟨m', ex', hpre⟩ := evalLoop_all_false_prefix
          { activityId := activityId, outboundFlows := flows, fromMessage := msg,
            discardRestAtTake := dr } nds d [] f0 [] 0 []
          (by rw [← hnd0]; exact hallfalse)
        rw [hpre]
        rw [evalLoop_step_final_take _ d m' false 0 ex'
          (formatFlowAction d "take" none none) (evaluateFlowRecord_default _ d hd)
          (by simp [formatFlowAction])]
        rw [completed_ok_of_pos _ _ _ (by omega)]
        refine ⟨_, rfl, ?_⟩
        refine ⟨_, List.mem_map.mpr ⟨(d.id, formatFlowAction d "take" none none),
          setKey_self_mem _ _ _, rfl⟩, ?_, ?_⟩ <;> simp [formatFlowAction]
  · -- some non-default flow takes: d gets action discard
    intro h4 hex
    obtain ⟨f, hfmem, ht⟩ := hex
    have hfin : f ∈ (flows.filter fun g => !g.isDefault) :=
      List.mem_filter.mpr ⟨hfmem, by simp [ht.1]⟩
    unfold evaluateOutbound
    dsimp only
    rw [hro]
    cases hnd0 : flows.filter fun f => !f.isDefault with
    | nil => rw [hnd0] at hfin; cases hfin
    | cons f0 bs =>
        rw [List.cons_append]
        dsimp only
        obtain ⟨m', tc', ex', heq, htcpos, hmem'⟩ := evalLoop_met_default
          { activityId := activityId, outboundFlows := flows, fromMessage := msg,
            discardRestAtTake := dr } d hd bs f0 [] false 0 []
          (fun g hg => h4 g (hfiltmem g (by simp [hnd0, hg])).1)
          (fun g hg => (hfiltmem g (by simp [hnd0, hg])).2)
          (by simp)
          (Or.inr ⟨f, by rw [← hnd0]; exact hfin, ht⟩)
        rw [heq]
        rw [completed_ok_of_pos _ _ _ (by omega)]
        refine ⟨_, rfl, ?_⟩
        refine ⟨_, List.mem_map.mpr ⟨(d.id, formatFlowAction d "discard" none none),
          hmem', rfl⟩, ?_, ?_⟩ <;> simp [formatFlowAction]

/-- Witness for C5 on two flows with the default declared first. -/
theorem c5_default_flow_witness :
    ((⟨"toD", true, none⟩ : Flow).isDefault = true ∧
     (⟨"toD", true, none⟩ : Flow) ∈
       ([⟨"toD", true, none⟩, ⟨"toA", false, some (.value true)⟩] : List Flow)) ∧
    (reorderDefaultLast [⟨"toD", true, none⟩, ⟨"toA", false, some (.value true)⟩] =
      ([⟨"toD", true, none⟩, ⟨"toA", false, some (.value true)⟩].filter
        fun f => !f.isDefault) ++ [⟨"toD", true, none⟩]) ∧
    "toD" ∉ (evaluateOutbound "gw"
      [⟨"toD", true, none⟩, ⟨"toA", false, some (.value true)⟩]
      ⟨⟨"exec1", none⟩⟩ false).executed ∧
    (∃ res, (evaluateOutbound "gw"
        [⟨"toD", true, none⟩, ⟨"toA", false, some (.value true)⟩]
        ⟨⟨"exec1", none⟩⟩ false).outcome = .ok res ∧
      ∃ r ∈ res, r.id = "toD" ∧ r.action = "discard") := by
  have h := c5_default_flow "gw"
    [⟨"toD", true, none⟩, ⟨"toA", false, some (.value true)⟩]
    ⟨⟨"exec1", none⟩⟩ false ⟨"toD", true, none⟩ (by decide) (by decide)
    (by decide) (by decide)
  refine ⟨⟨by decide, by decide⟩, h.1, h.2.1, h.2.2.2 ?_ ⟨⟨"toA", false, some (.value true)⟩,
    by decide, by decide, by decide⟩⟩
  intro f hf e
  rcases List.mem_cons.mp hf with rfl | hf2
  · simp
  · rcases List.mem_cons.mp hf2 with rfl | hf3
    · simp
    · cases hf3

lemma default_only_last (A : List Flow) (d : Flow)
    (hA : ∀ f ∈ A, f.isDefault = false) :
    ∀ l1 f l2, A ++ [d] = l1 ++ f :: l2 → f.isDefault = true → l2 = [] := by
  induction A with
  | nil =>
      intro l1 f l2 heq _
      cases l1 with
      | nil =>
          simp only [List.nil_append] at heq
          injection heq with h1 h2
          exact h2.symm
      | cons x l1' =>
          simp only [List.nil_append, List.cons_append] at heq
          injection heq with h1 h2
          exact absurd h2.symm (by simp)
  | cons a A' ih =>
      intro l1 f l2 heq hf
      cases l1 with
      | nil =>
          simp only [List.cons_append, List.nil_append] at heq
          injection heq with h1 h2
          rw [← h1] at hf
          rw [hA a (by simp)] at hf
          cases hf
      | cons x l1' =>
          simp only [List.cons_append] at heq
          injection heq with h1 h2
          exact ih (fun g hg => hA g (by simp [hg])) l1' f l2 h2 hf

/-- C6: with `discardRestAtTake` enabled, a delivered result contains at
most one `take`, and everything after the take record is a bare discard
whose condition was never executed; for any `discardRestAtTake`, a
delivered result for a non-empty outbound set contains at least one
`take`. -/
theorem c6_discard_rest_at_take (activityId : String) (flows : List Flow)
    (msg : SourceMessage) (hnodup : (flows.map Flow.id).Nodup) :
    (∀ res, (evaluateOutbound activityId flows msg true).outcome = .ok res →
       countTakes res ≤ 1 ∧
       ∀ (l1 l2 : List FlowRecord) (tk : FlowRecord), res = l1 ++ tk :: l2 →
         tk.action = "take" →
         ∀ r ∈ l2, r.action = "discard" ∧ r.result = none ∧ r.evaluationId = none ∧
           r.id ∉ (evaluateOutbound activityId flows msg true).executed) ∧
    (∀ dr res, flows ≠ [] →
       (evaluateOutbound activityId flows msg dr).outcome = .ok res →
       1 ≤ countTakes res) := by
  constructor
  · intro res
    unfold evaluateOutbound
    dsimp only
    cases hro : reorderDefaultLast flows with
    | nil =>
        intro h
        have hflows : flows = [] := ((reorder_perm flows).symm.trans (hro ▸ .refl _)).eq_nil
        dsimp only at h
        rw [hflows] at h
        unfold completed at h
        rw [if_neg (by simp)] at h
        injection h with h1
        subst h1
        constructor
        · simp [countTakes]
        · intro l1 l2 tk heq
          exact absurd heq (by simp)
    | cons f0 os =>
        dsimp only
        intro h
        have hfresh : ((([] : List (String × FlowRecord)).map Prod.fst) ++
            (f0 :: os).map Flow.id).Nodup := by
          have := reorder_ids_nodup flows hnodup
          rw [hro] at this
          simpa using this
        exact evalLoop_dr _ rfl os f0 [] 0 [] hfresh (by simp) (by simp) res h
  · intro dr res h1 h
    unfold evaluateOutbound at h
    dsimp only at h
    cases hro : reorderDefaultLast flows with
    | nil =>
        exact absurd ((reorder_perm flows).symm.trans (hro ▸ .refl _)).eq_nil h1
    | cons f0 os =>
        rw [hro] at h
        dsimp only at h
        have hfresh : ((([] : List (String × FlowRecord)).map Prod.fst) ++
            (f0 :: os).map Flow.id).Nodup := by
          have := reorder_ids_nodup flows hnodup
          rw [hro] at this
          simpa using this
        refine evalLoop_count _ os f0 [] false 0 [] hfresh (by simp [mapTakes]) res h ?_
        simpa using fun h0 => h1 (List.length_eq_zero.mp h0)

/-- Witness for C6: two truthy conditional flows under
`discardRestAtTake`. -/
theorem c6_discard_rest_at_take_witness :
    ((([⟨"a", false, some (.value true)⟩, ⟨"b", false, some (.value true)⟩] :
        List Flow).map Flow.id).Nodup) ∧
    countTakes
      [⟨"a", "take", false, some true, some "exec1", none⟩,
       ⟨"b", "discard", false, none, none, none⟩] ≤ 1 ∧
    1 ≤ countTakes
      [⟨"a", "take", false, some true, some "exec1", none⟩,
       ⟨"b", "discard", false, none, none, none⟩] :=
  ⟨by decide,
   ((c6_discard_rest_at_take "gw"
      [⟨"a", false, some (.value true)⟩, ⟨"b", false, some (.value true)⟩]
      ⟨⟨"exec1", none⟩⟩ (by decide)).1
      [⟨"a", "take", false, some true, some "exec1", none⟩,
       ⟨"b", "discard", false, none, none, none⟩] (by decide)).1,
   (c6_discard_rest_at_take "gw"
      [⟨"a", false, some (.value true)⟩, ⟨"b", false, some (.value true)⟩]
      ⟨⟨"exec1", none⟩⟩ (by decide)).2 true
      [⟨"a", "take", false, some true, some "exec1", none⟩,
       ⟨"b", "discard", false, none, none, none⟩] (by decide) (by decide)⟩

/-- C7 counterexample: with the default flow declared first, the delivered
records are in evaluation order (default moved last), not in the outbound
flows' original declaration order. -/
theorem c7_declaration_order_counterexample :
    (evaluateOutbound "gw"
        [⟨"toD", true, none⟩, ⟨"toA", false, some (.value true)⟩]
        ⟨⟨"exec1", none⟩⟩ false).outcome =
      .ok [⟨"toA", "take", false, some true, some "exec1", none⟩,
           ⟨"toD", "discard", true, none, none, none⟩] ∧
    ([⟨"toA", "take", false, some true, some "exec1", none⟩,
      ⟨"toD", "discard", true, none, none, none⟩] : List FlowRecord).map FlowRecord.id =
      ["toA", "toD"] ∧
    ([⟨"toD", true, none⟩, ⟨"toA", false, some (.value true)⟩] : List Flow).map Flow.id =
      ["toD", "toA"] ∧
    (["toA", "toD"] : List String) ≠ ["toD", "toA"] := by
  decide

/-- C7 as amended: a delivered result holds one record per outbound flow in
evaluation order, i.e. declaration order with the default flow (if any)
moved last; each record carries the flow's id and default flag, the source
`message` payload, and an `evaluationId` that is either absent (no
condition executed) or the evaluation's id. -/
theorem c7_result_shape (activityId : String) (flows : List Flow) (msg : SourceMessage)
    (dr : Bool) (hnodup : (flows.map Flow.id).Nodup)
    (hatmost : ∀ f ∈ flows, f.isDefault = true → ∀ g ∈ flows, g.isDefault = true → f = g) :
    ∀ res, (evaluateOutbound activityId flows msg dr).outcome = .ok res →
      res.map FlowRecord.id = (reorderDefaultLast flows).map Flow.id ∧
      ∀ r ∈ res, r.message = msg.content.message ∧
        (r.evaluationId = none ∨ r.evaluationId = some msg.content.executionId) ∧
        ∃ f ∈ flows, r.id = f.id ∧ r.isDefault = f.isDefault := by
  intro res
  unfold evaluateOutbound
  dsimp only
  cases hro : reorderDefaultLast flows with
  | nil =>
      intro h
      have hflows : flows = [] := ((reorder_perm flows).symm.trans (hro ▸ .refl _)).eq_nil
      dsimp only at h
      rw [hflows] at h
      unfold completed at h
      rw [if_neg (by simp)] at h
      injection h with h1
      subst h1
      simp
  | cons f0 os =>
      dsimp only
      intro h
      have hfresh : ((([] : List (String × FlowRecord)).map Prod.fst) ++
          (f0 :: os).map Flow.id).Nodup := by
        have := reorder_ids_nodup flows hnodup
        rw [hro] at this
        simpa using this
      have hsub : ∀ f ∈ f0 :: os, f ∈ flows := by
        intro f hf
        have := (reorder_perm flows).mem_iff.mp (by rw [hro]; exact hf)
        exact this
      have hdl : ∀ l1 f l2, f0 :: os = l1 ++ f :: l2 → f.isDefault = true → l2 = [] := by
        by_cases hex : ∃ d ∈ flows, d.isDefault = true
        · obtain ⟨d, hdmem, hdflag⟩ := hex
          have hro2 : reorderDefaultLast flows =
              (flows.filter fun f => !f.isDefault) ++ [d] :=
            reorder_unique_default flows d hdflag hdmem
              (fun f hf hfd => hatmost f hf hfd d hdmem hdflag) hnodup
          intro l1 f l2 heq hfd
          refine default_only_last (flows.filter fun f => !f.isDefault) d ?_ l1 f l2 ?_ hfd
          · intro g hg
            simpa using (List.mem_filter.mp hg).2
          · rw [← hro2, hro, heq]
        · intro l1 f l2 heq hfd
          exact absurd ⟨f, hsub f (by rw [heq]; simp), hfd⟩ hex
      obtain ⟨hids, hfacts⟩ := evalLoop_order _ flows os f0 [] false 0 [] hfresh
        (by simp) hsub hdl res h
      exact ⟨by simpa using hids, hfacts⟩

/-- Witness for C7's amended theorem on the default-first flow pair. -/
theorem c7_result_shape_witness :
    ((([⟨"toD", true, none⟩, ⟨"toA", false, some (.value true)⟩] :
        List Flow).map Flow.id).Nodup) ∧
    ([⟨"toA", "take", false, some true, some "exec1", none⟩,
      ⟨"toD", "discard", true, none, none, none⟩] : List FlowRecord).map FlowRecord.id =
      (reorderDefaultLast
        [⟨"toD", true, none⟩, ⟨"toA", false, some (.value true)⟩]).map Flow.id :=
  ⟨by decide,
   (c7_result_shape "gw" [⟨"toD", true, none⟩, ⟨"toA", false, some (.value true)⟩]
      ⟨⟨"exec1", none⟩⟩ false (by decide) (by decide)
      [⟨"toA", "take", false, some true, some "exec1", none⟩,
       ⟨"toD", "discard", true, none, none, none⟩] (by decide)).1⟩

/-- Witness for C2 on a single falsy conditional flow. -/
theorem c2_no_flow_taken_witness :
    ([⟨"toB", false, some (.value false)⟩] : List Flow) ≠ [] ∧
    (evaluateOutbound "gw" [⟨"toB", false, some (.value false)⟩]
        ⟨⟨"exec1", none⟩⟩ false).outcome =
      .failure { message := noTakenMessage "gw", source := ⟨⟨"exec1", none⟩⟩ } :=
  ⟨by decide,
   (c2_no_flow_taken "gw" [⟨"toB", false, some (.value false)⟩] ⟨⟨"exec1", none⟩⟩ false
      (by decide) (by decide)).1⟩

end Bpmn
